import Mathlib

/-!
Verification development for the CPU ndarray backend
(`src/ndarray_backend_cpu.cc`, namespace `needle::cpu`).

Buffers (`AlignedArray`) are modelled as total functions `ℕ → α` together
with an explicit element count; every C++ kernel becomes a Lean function
that takes the initial contents of its output buffer and returns the final
contents.  A store `out->ptr[t] = v` is `writeIdx out t v`.  The scalar type
`scalar_t` (a 32-bit float) is modelled abstractly: kernels that only need
`+`, `*` and `0` are parametrised by a `ScalarOps` structure carrying the
three operations with no algebraic laws, so a theorem proved for every
`ScalarOps` holds in particular for IEEE floating point operations and
captures the exact order of operations (bit-for-bit behaviour); concrete
numeric examples instantiate the operations at `ℤ`, which is exact at the
small integer values the spec's examples use.  Shapes, strides and index
tuples (`std::vector<int32_t>`) are `List Int`; `size_t` counts are `ℕ`;
the physical location computed by `getLocation` is an integer (the claims
under verification restrict attention to inputs whose resolved locations
are within bounds, so `int32_t`/`size_t` wraparound never occurs there).
-/

namespace Needle

/-- The tile size `TILE` from the source (`#define TILE 8`). -/
def TILE : ℕ := 8

/-- A single store into a buffer: `out->ptr[i] = v`. -/
def writeIdx {α : Type} (f : ℕ → α) (i : ℕ) (v : α) : ℕ → α :=
  fun j => if j = i then v else f j

/-- The scalar operations used by the arithmetic kernels, kept abstract (no
laws), so that statements proved for every `ScalarOps` capture the exact
sequence of scalar operations the C++ code performs. -/
structure ScalarOps (α : Type) where
  add : α → α → α
  mul : α → α → α
  zero : α

/-- Exact-arithmetic instantiation used for the spec's numeric examples
(the example values are all integral, so `ℤ` is exact for them). -/
def intOps : ScalarOps ℤ := ⟨fun x y => x + y, fun x y => x * y, 0⟩

/-- The dot-product loop of `getLocation`:
`for i < indices_vector.size(): loc += strides[i] * indices_vector[i]`. -/
def dotProd : List Int → List Int → ℤ
  | s :: ss, v :: vs => s * v + dotProd ss vs
  | _, _ => 0

/-- `getLocation(strides, offset, indices_vector)` from the source:
`offset + Σ strides[i] * indices_vector[i]`. -/
def getLocation (strides : List Int) (offset : ℕ) (iv : List Int) : ℤ :=
  (offset : ℤ) + dotProd strides iv

/-- The backward scan of `updateIndices`, written on the reversed lists
(head = last axis, which is where the C++ loop starts).  At each position:
if the component is below `shape[i] - 1` it is incremented and the scan
stops; otherwise, if this is the first axis (`i == 0`, i.e. the reversed
tail is empty) the scan stops without a change; otherwise the component is
reset to `0` and the scan moves one axis forward. -/
def updateRev : List Int → List Int → List Int
  | s :: ss, v :: vs =>
    if v < s - 1 then (v + 1) :: vs
    else if vs = [] then v :: vs
    else 0 :: updateRev ss vs
  | _, iv => iv

/-- `updateIndices(shape, indices_vector)` from the source: advance the
current multi-index to its row-major successor by scanning from the last
axis backwards. -/
def updateIndices (shape iv : List Int) : List Int :=
  (updateRev shape.reverse iv.reverse).reverse

/-- The loop of `updateIndices` modelled at the level of individual indexed
accesses: position `i` counts down from `indices_vector.size() - 1`, and
every access `indices_vector[i]` / `shape[i]` is bounds-checked, returning
`none` on an out-of-range access (the C++ undefined behaviour). -/
def updLoop (shape : List Int) : ℕ → List Int → Option (List Int)
  | 0, iv =>
    match iv[0]?, shape[0]? with
    | some v, some s => if v < s - 1 then some (iv.set 0 (v + 1)) else some iv
    | _, _ => none
  | i + 1, iv =>
    match iv[i + 1]?, shape[i + 1]? with
    | some v, some s =>
      if v < s - 1 then some (iv.set (i + 1) (v + 1))
      else updLoop shape i (iv.set (i + 1) 0)
    | _, _ => none

/-- Bounds-checked model of `updateIndices`.  For a rank-0 tuple the C++
start index `indices_vector.size() - 1` underflows to `SIZE_MAX` and the
first access is out of range, hence `none`. -/
def updateIndicesChecked (shape iv : List Int) : Option (List Int) :=
  match iv.length with
  | 0 => none
  | r + 1 => updLoop shape r iv

/-- Product of the axis sizes of a shape (the element count of the view). -/
def natProd (shape : List Int) : ℕ :=
  (shape.map Int.toNat).prod

/-- The `i`-th row-major multi-index of a shape, built on the reversed
shape (head = last axis, which varies fastest): component = `i mod size`,
then recurse on `i / size`. -/
def idxTupleRev : List Int → ℕ → List Int
  | [], _ => []
  | s :: ss, i => ((i % s.toNat : ℕ) : ℤ) :: idxTupleRev ss (i / s.toNat)

/-- The `i`-th multi-index of `shape` in row-major (last-axis-fastest)
order. -/
def idxTuple (shape : List Int) (i : ℕ) : List Int :=
  (idxTupleRev shape.reverse i).reverse

/-- Rank (row-major position) of a multi-index, on reversed lists. -/
def rankRev : List Int → List Int → ℕ
  | s :: ss, v :: vs => v.toNat + s.toNat * rankRev ss vs
  | _, _ => 0

/-- Componentwise bounds `0 ≤ iv[i] < shape[i]` (and equal ranks). -/
def inBds : List Int → List Int → Prop
  | [], [] => True
  | s :: ss, v :: vs => (0 ≤ v ∧ v < s) ∧ inBds ss vs
  | _, _ => False

/-- The sequence of index tuples produced inside the view-transfer loops:
start at the all-zero tuple, step with `updateIndices`. -/
def ivSeq (shape : List Int) : ℕ → List Int
  | 0 => List.replicate shape.length 0
  | i + 1 => updateIndices shape (ivSeq shape i)

/-- `Compact(a, out, shape, strides, offset)` from the source: for
`i < out->size`, `out->ptr[i] = a.ptr[getLocation(strides, offset, iv)]`,
then `updateIndices(shape, iv)`; `iv` starts as the all-zero tuple.
`outSize` is `out->size`; `out0` is the initial contents of `out`.
The input `a` is taken by `const` reference and is never written. -/
def Compact {α : Type} (a : ℕ → α) (out0 : ℕ → α) (outSize : ℕ)
    (shape strides : List Int) (offset : ℕ) : ℕ → α :=
  ((List.range outSize).foldl
    (fun (st : List Int × (ℕ → α)) i =>
      (updateIndices shape st.1,
       writeIdx st.2 i (a (getLocation strides offset st.1).toNat)))
    (List.replicate shape.length 0, out0)).2

/-- `EwiseSetitem(a, out, shape, strides, offset)` from the source: for
`i < a.size`, `out->ptr[getLocation(strides, offset, iv)] = a.ptr[i]`,
then `updateIndices(shape, iv)`. -/
def EwiseSetitem {α : Type} (a : ℕ → α) (asize : ℕ) (out0 : ℕ → α)
    (shape strides : List Int) (offset : ℕ) : ℕ → α :=
  ((List.range asize).foldl
    (fun (st : List Int × (ℕ → α)) i =>
      (updateIndices shape st.1,
       writeIdx st.2 (getLocation strides offset st.1).toNat (a i)))
    (List.replicate shape.length 0, out0)).2

/-- `ScalarSetitem(size, val, out, shape, strides, offset)` from the
source: for `i < size`, `out->ptr[getLocation(strides, offset, iv)] = val`,
then `updateIndices(shape, iv)`. -/
def ScalarSetitem {α : Type} (size : ℕ) (val : α) (out0 : ℕ → α)
    (shape strides : List Int) (offset : ℕ) : ℕ → α :=
  ((List.range size).foldl
    (fun (st : List Int × (ℕ → α)) _ =>
      (updateIndices shape st.1,
       writeIdx st.2 (getLocation strides offset st.1).toNat val))
    (List.replicate shape.length 0, out0)).2

/-- `EwiseAdd(a, b, out)` from the source: for `i < a.size`,
`out->ptr[i] = a.ptr[i] + b.ptr[i]`. -/
def EwiseAdd {α : Type} (S : ScalarOps α) (a b : ℕ → α) (asize : ℕ)
    (out0 : ℕ → α) : ℕ → α :=
  (List.range asize).foldl (fun out i => writeIdx out i (S.add (a i) (b i))) out0

/-- `ScalarGe(a, val, out)` from the source: for `i < a.size`,
`out->ptr[i] = scalar_t(a.ptr[i] >= val)`, i.e. `1` when `a.ptr[i] ≥ val`
and `0` otherwise. -/
def ScalarGe (a : ℕ → ℤ) (val : ℤ) (asize : ℕ) (out0 : ℕ → ℤ) : ℕ → ℤ :=
  (List.range asize).foldl
    (fun out i => writeIdx out i (if a i ≥ val then 1 else 0)) out0

/-- `Matmul(a, b, out, m, n, p)` from the source: the naive triple loop;
`out->ptr[i*p+j] = 0`, then `out->ptr[i*p+j] += a.ptr[i*n+k] * b.ptr[k*p+j]`
for `k = 0, …, n-1` in order. -/
def Matmul {α : Type} (S : ScalarOps α) (a b : ℕ → α) (m n p : ℕ)
    (out0 : ℕ → α) : ℕ → α :=
  (List.range m).foldl (fun out i =>
    (List.range p).foldl (fun out j =>
      (List.range n).foldl (fun out k =>
        writeIdx out (i * p + j)
          (S.add (out (i * p + j)) (S.mul (a (i * n + k)) (b (k * p + j)))))
        (writeIdx out (i * p + j) S.zero)) out) out0

/-- The single-cell summation `Σ_k a[i*n+k] * b[k*p+j]` of the naive
matmul, as the left fold the code performs (zero first, increasing `k`). -/
def matCell {α : Type} (S : ScalarOps α) (a b : ℕ → α) (n p : ℕ)
    (i j : ℕ) : α :=
  (List.range n).foldl
    (fun acc k => S.add acc (S.mul (a (i * n + k)) (b (k * p + j)))) S.zero

/-- `AlignedDot(a, b, out)` from the source: for every `i, j, k < TILE` (in
that loop order), `out[i*TILE+j] += a[i*TILE+k] * b[k*TILE+j]`; `out` is
never cleared first. -/
def AlignedDot {α : Type} (S : ScalarOps α) (a b : ℕ → α) (out0 : ℕ → α) :
    ℕ → α :=
  (List.range TILE).foldl (fun out i =>
    (List.range TILE).foldl (fun out j =>
      (List.range TILE).foldl (fun out k =>
        writeIdx out (i * TILE + j)
          (S.add (out (i * TILE + j))
            (S.mul (a (i * TILE + k)) (b (k * TILE + j)))))
        out) out) out0

/-- The tile-extraction loops of `MatmulTiled`: for `ii, jj < TILE`,
`tile[ii*TILE+jj] = src.ptr[base + ii*TILE + jj]` (where `base` is
`i*n*TILE + k*TILE*TILE` for `a`, resp. `k*p*TILE + j*TILE*TILE` for `b`). -/
def fillTile {α : Type} (t0 : ℕ → α) (src : ℕ → α) (base : ℕ) : ℕ → α :=
  (List.range TILE).foldl (fun t ii =>
    (List.range TILE).foldl (fun t jj =>
      writeIdx t (ii * TILE + jj) (src (base + ii * TILE + jj))) t) t0

/-- The write-back loops of `MatmulTiled`: for `ii, jj < TILE`,
`out->ptr[base + ii*TILE + jj] = tmp_res[ii*TILE+jj]` with
`base = i*p*TILE + j*TILE*TILE`. -/
def writeBackTile {α : Type} (out : ℕ → α) (tmp : ℕ → α) (base : ℕ) :
    ℕ → α :=
  (List.range TILE).foldl (fun o ii =>
    (List.range TILE).foldl (fun o jj =>
      writeIdx o (base + ii * TILE + jj) (tmp (ii * TILE + jj))) o) out

/-- `MatmulTiled(a, b, out, m, n, p)` from the source.  The state carries
the two scratch tiles (`std::vector<float> tile_a, tile_b`, allocated once
before the loops, zero-initialised) and the output buffer; for each output
block `(i, j)` a fresh accumulator `tmp_res` of zeros is created, every
reduction block `k` copies the two source tiles and calls `AlignedDot`, and
the accumulator is then written back into `out`'s block `(i, j)`. -/
def MatmulTiled {α : Type} (S : ScalarOps α) (a b : ℕ → α) (m n p : ℕ)
    (out0 : ℕ → α) : ℕ → α :=
  ((List.range (m / TILE)).foldl
    (fun (st : ((ℕ → α) × (ℕ → α)) × (ℕ → α)) i =>
      (List.range (p / TILE)).foldl
        (fun (st : ((ℕ → α) × (ℕ → α)) × (ℕ → α)) j =>
          let res :=
            (List.range (n / TILE)).foldl
              (fun (st2 : ((ℕ → α) × (ℕ → α)) × (ℕ → α)) k =>
                let ta := fillTile st2.1.1 a (i * n * TILE + k * TILE * TILE)
                let tb := fillTile st2.1.2 b (k * p * TILE + j * TILE * TILE)
                ((ta, tb), AlignedDot S ta tb st2.2))
              ((st.1.1, st.1.2), fun _ => S.zero)
          (res.1, writeBackTile st.2 res.2 (i * p * TILE + j * TILE * TILE)))
        st)
    ((fun _ => S.zero, fun _ => S.zero), out0)).2

/-- The loop of `ReduceMax`: `i` advances by `reduce_size` while
`i < a.size`, `cnt` counts output cells; each run folds `std::max` over
`a.ptr[i+1 … i+reduce_size-1]` starting from `a.ptr[i]`.  The guard
`0 < rs` reflects that `reduce_size == 0` makes the C++ loop diverge
(`reduce_size ≥ 1` is a documented precondition). -/
def reduceMaxLoop {α : Type} (maxF : α → α → α) (a : ℕ → α)
    (rs asize : ℕ) : ℕ → ℕ → (ℕ → α) → ℕ → α :=
  fun i cnt out =>
    if h : i < asize ∧ 0 < rs then
      reduceMaxLoop maxF a rs asize (i + rs) (cnt + 1)
        (writeIdx out cnt
          ((List.range (rs - 1)).foldl
            (fun mx t => maxF mx (a (i + 1 + t))) (a i)))
    else out
termination_by i => asize - i
decreasing_by omega

/-- `ReduceMax(a, out, reduce_size)` from the source. -/
def ReduceMax {α : Type} (maxF : α → α → α) (a : ℕ → α) (out0 : ℕ → α)
    (asize rs : ℕ) : ℕ → α :=
  reduceMaxLoop maxF a rs asize 0 0 out0

/-- The loop of `ReduceSum`: like `reduceMaxLoop`, but each run is a left
fold of `+` over `a.ptr[i … i+reduce_size-1]` starting from `0`. -/
def reduceSumLoop {α : Type} (S : ScalarOps α) (a : ℕ → α)
    (rs asize : ℕ) : ℕ → ℕ → (ℕ → α) → ℕ → α :=
  fun i cnt out =>
    if h : i < asize ∧ 0 < rs then
      reduceSumLoop S a rs asize (i + rs) (cnt + 1)
        (writeIdx out cnt
          ((List.range rs).foldl
            (fun acc t => S.add acc (a (i + t))) S.zero))
    else out
termination_by i => asize - i
decreasing_by omega

/-- `ReduceSum(a, out, reduce_size)` from the source. -/
def ReduceSum {α : Type} (S : ScalarOps α) (a : ℕ → α) (out0 : ℕ → α)
    (asize rs : ℕ) : ℕ → α :=
  reduceSumLoop S a rs asize 0 0 out0

/-- The value of one `AlignedDot` output cell `(i, j)` when the call starts
from `init` in that cell: the left fold, in increasing `k`, of
`+ a[i*TILE+k] * b[k*TILE+j]`. -/
def kcell {α : Type} (S : ScalarOps α) (a b : ℕ → α) (i j : ℕ)
    (init : α) : α :=
  (List.range TILE).foldl
    (fun acc k => S.add acc (S.mul (a (i * TILE + k)) (b (k * TILE + j))))
    init

/-- The value `MatmulTiled` accumulates for cell `r` (`r < TILE*TILE`) of
output block `(i, j)`: for each reduction block `kb` in increasing order,
fold the micro-kernel products over `kk` in increasing order, all into one
running accumulator starting at zero. -/
def tiledCell {α : Type} (S : ScalarOps α) (a b : ℕ → α) (n p : ℕ)
    (i j : ℕ) (r : ℕ) : α :=
  (List.range (n / TILE)).foldl
    (fun v kb =>
      (List.range TILE).foldl
        (fun acc kk =>
          S.add acc
            (S.mul (a (i * n * TILE + kb * TILE * TILE + ((r / TILE) * TILE + kk)))
                   (b (kb * p * TILE + j * TILE * TILE + (kk * TILE + r % TILE)))))
        v)
    S.zero

/-- The value of one `ReduceMax` run starting at `start`: fold `max` over
the `reduce_size - 1` later elements, starting from `a[start]`. -/
def runMax {α : Type} (maxF : α → α → α) (a : ℕ → α) (rs start : ℕ) : α :=
  (List.range (rs - 1)).foldl (fun mx t => maxF mx (a (start + 1 + t))) (a start)

/-- The value of one `ReduceSum` run starting at `start`: fold `+` over the
`reduce_size` elements of the run, starting from zero. -/
def runSum {α : Type} (S : ScalarOps α) (a : ℕ → α) (rs start : ℕ) : α :=
  (List.range rs).foldl (fun acc t => S.add acc (a (start + t))) S.zero

section FoldLemmas

variable {α β γ : Type}

lemma writeIdx_apply (f : ℕ → α) (i : ℕ) (v : α) (j : ℕ) :
    writeIdx f i v j = if j = i then v else f j := rfl

lemma writeIdx_same (f : ℕ → α) (i : ℕ) (v : α) : writeIdx f i v i = v := by
  simp [writeIdx]

lemma writeIdx_other (f : ℕ → α) (i : ℕ) (v : α) (j : ℕ) (h : j ≠ i) :
    writeIdx f i v j = f j := by
  simp [writeIdx, h]

/-- A fold that repeatedly reads cell `t`, combines and writes back to `t`
is, pointwise, a single write of the folded value. -/
lemma foldl_writeIdx_accum (l : List β) (g : α → β → α) (t : ℕ) :
    ∀ (out0 : ℕ → α) (q : ℕ),
      (l.foldl (fun out k => writeIdx out t (g (out t) k)) out0) q
        = if q = t then l.foldl g (out0 t) else out0 q := by
  induction l with
  | nil => intro out0 q; by_cases h : q = t <;> simp [h]
  | cons b l ih =>
    intro out0 q
    rw [List.foldl_cons, List.foldl_cons, ih]
    by_cases h : q = t <;> simp [h, writeIdx_same, writeIdx_other]

/-- Flattening a nested fold over `range a × range b` into a single fold
over `range (a*b)`, recovering the two loop counters by `/ b` and `% b`. -/
lemma foldl_range_nested (b : ℕ) (φ : γ → ℕ → ℕ → γ) :
    ∀ (a : ℕ) (s0 : γ),
      (List.range a).foldl
          (fun s i => (List.range b).foldl (fun s j => φ s i j) s) s0
        = (List.range (a * b)).foldl (fun s t => φ s (t / b) (t % b)) s0 := by
  intro a
  induction a with
  | zero => intro s0; simp
  | succ a ih =>
    intro s0
    rcases Nat.eq_zero_or_pos b with hb | hb
    · subst hb; simp [ih]
    · rw [List.range_succ, List.foldl_append, ih, Nat.succ_mul,
        List.range_add, List.foldl_append, List.foldl_map,
        List.foldl_cons, List.foldl_nil]
      apply List.foldl_ext
      intro s j hj
      rw [List.mem_range] at hj
      have h1 : (a * b + j) / b = a + j / b := by
        rw [Nat.add_comm (a * b) j, Nat.add_mul_div_right _ _ hb, Nat.add_comm]
      have h2 : (a * b + j) % b = j := by
        rw [Nat.add_comm (a * b) j, Nat.add_mul_mod_self_right,
          Nat.mod_eq_of_lt hj]
      rw [h1, h2, Nat.div_eq_of_lt hj, Nat.add_zero]

/-- A fold that writes fresh values at the distinct positions
`base, base+1, …, base+N-1`, in order. -/
lemma foldl_writeIdx_seq (base : ℕ) (g : ℕ → α) :
    ∀ (N : ℕ) (out0 : ℕ → α) (q : ℕ),
      ((List.range N).foldl (fun out t => writeIdx out (base + t) (g t)) out0) q
        = if base ≤ q ∧ q < base + N then g (q - base) else out0 q := by
  intro N
  induction N with
  | zero =>
    intro out0 q
    rw [List.range_zero, List.foldl_nil, if_neg (by omega)]
  | succ N ih =>
    intro out0 q
    rw [List.range_succ, List.foldl_append, List.foldl_cons, List.foldl_nil,
      writeIdx_apply, ih]
    by_cases h1 : q = base + N
    · rw [if_pos h1, if_pos (by omega)]
      congr 1
      omega
    · rw [if_neg h1]
      by_cases h2 : base ≤ q ∧ q < base + N
      · rw [if_pos h2, if_pos (by omega)]
      · rw [if_neg h2, if_neg (by omega)]

/-- Special case of `foldl_writeIdx_seq` for writes at `0, 1, …, N-1`. -/
lemma foldl_writeIdx_seq0 (g : ℕ → α) :
    ∀ (N : ℕ) (out0 : ℕ → α) (q : ℕ),
      ((List.range N).foldl (fun out t => writeIdx out t (g t)) out0) q
        = if q < N then g q else out0 q := by
  intro N
  induction N with
  | zero =>
    intro out0 q
    rw [List.range_zero, List.foldl_nil, if_neg (by omega)]
  | succ N ih =>
    intro out0 q
    rw [List.range_succ, List.foldl_append, List.foldl_cons, List.foldl_nil,
      writeIdx_apply, ih]
    by_cases h1 : q = N
    · rw [if_pos h1, if_pos (by omega)]
      congr 1
      omega
    · rw [if_neg h1]
      by_cases h2 : q < N
      · rw [if_pos h2, if_pos (by omega)]
      · rw [if_neg h2, if_neg (by omega)]

/-- A fold over `range N` that writes at position `t` a value computed from
the cell's own current value `out t`: position `t` is written exactly once,
reading the original `out0 t`. -/
lemma foldl_writeIdx_selfseq (g : ℕ → α → α) :
    ∀ (N : ℕ) (out0 : ℕ → α) (q : ℕ),
      ((List.range N).foldl (fun out t => writeIdx out t (g t (out t))) out0) q
        = if q < N then g q (out0 q) else out0 q := by
  intro N
  induction N with
  | zero =>
    intro out0 q
    rw [List.range_zero, List.foldl_nil, if_neg (by omega)]
  | succ N ih =>
    intro out0 q
    rw [List.range_succ, List.foldl_append, List.foldl_cons, List.foldl_nil,
      writeIdx_apply]
    simp only [ih]
    rw [if_neg (Nat.lt_irrefl N)]
    by_cases h1 : q = N
    · rw [if_pos h1, if_pos (by omega)]
      subst h1
      rfl
    · rw [if_neg h1]
      by_cases h2 : q < N
      · rw [if_pos h2, if_pos (by omega)]
      · rw [if_neg h2, if_neg (by omega)]

end FoldLemmas

section MatmulLemmas

variable {α : Type}

/-- Shifting the start value out of a left fold of additions, over `ℤ`. -/
lemma foldl_add_shift {β : Type} (f : β → ℤ) :
    ∀ (l : List β) (init : ℤ),
      l.foldl (fun acc x => acc + f x) init
        = init + l.foldl (fun acc x => acc + f x) 0 := by
  intro l
  induction l with
  | nil => intro init; simp
  | cons b l ih =>
    intro init
    rw [List.foldl_cons, List.foldl_cons, ih, ih (0 + f b)]
    ring

/-- Pointwise characterisation of the naive `Matmul`: cell `q < m*p` holds
the zero-based `k`-fold for logical cell `(q/p, q%p)`; other positions keep
their prior contents. -/
lemma Matmul_char (S : ScalarOps α) (a b : ℕ → α) (m n p : ℕ)
    (out0 : ℕ → α) (q : ℕ) :
    Matmul S a b m n p out0 q
      = if q < m * p then matCell S a b n p (q / p) (q % p) else out0 q := by
  have hinner : ∀ (out : ℕ → α) (i j : ℕ),
      (List.range n).foldl
        (fun out k => writeIdx out (i * p + j)
          (S.add (out (i * p + j)) (S.mul (a (i * n + k)) (b (k * p + j)))))
        (writeIdx out (i * p + j) S.zero)
      = writeIdx out (i * p + j) (matCell S a b n p i j) := by
    intro out i j
    funext r
    have h := foldl_writeIdx_accum (List.range n)
      (fun acc k => S.add acc (S.mul (a (i * n + k)) (b (k * p + j))))
      (i * p + j) (writeIdx out (i * p + j) S.zero) r
    by_cases hr : r = i * p + j
    · rw [if_pos hr, writeIdx_same] at h
      rw [writeIdx_apply, if_pos hr]
      exact h
    · rw [if_neg hr, writeIdx_other _ _ _ _ hr] at h
      rw [writeIdx_apply, if_neg hr]
      exact h
  have step1 : Matmul S a b m n p out0
      = (List.range m).foldl
          (fun out i => (List.range p).foldl
            (fun out j => writeIdx out (i * p + j) (matCell S a b n p i j))
            out) out0 := by
    unfold Matmul
    apply List.foldl_ext
    intro out i _
    apply List.foldl_ext
    intro out2 j _
    exact hinner out2 i j
  have step2 := foldl_range_nested p
    (fun (out : ℕ → α) i j => writeIdx out (i * p + j) (matCell S a b n p i j))
    m out0
  have step3 : (List.range (m * p)).foldl
      (fun (out : ℕ → α) t =>
        writeIdx out (t / p * p + t % p) (matCell S a b n p (t / p) (t % p)))
      out0
    = (List.range (m * p)).foldl
      (fun (out : ℕ → α) t =>
        writeIdx out t (matCell S a b n p (t / p) (t % p))) out0 := by
    apply List.foldl_ext
    intro out t _
    have ht : t / p * p + t % p = t := by
      rw [Nat.mul_comm]
      exact Nat.div_add_mod t p
    rw [ht]
  have hall : Matmul S a b m n p out0
      = (List.range (m * p)).foldl
          (fun (out : ℕ → α) t =>
            writeIdx out t (matCell S a b n p (t / p) (t % p))) out0 :=
    step1.trans (step2.trans step3)
  rw [hall]
  exact foldl_writeIdx_seq0 (fun t => matCell S a b n p (t / p) (t % p))
    (m * p) out0 q

/-- Pointwise characterisation of `AlignedDot`: cell `q < TILE*TILE` is the
`k`-fold started from the cell's own prior value; other positions keep
their prior contents. -/
lemma AlignedDot_char (S : ScalarOps α) (a b : ℕ → α) (out0 : ℕ → α)
    (q : ℕ) :
    AlignedDot S a b out0 q
      = if q < TILE * TILE then kcell S a b (q / TILE) (q % TILE) (out0 q)
        else out0 q := by
  have hinner : ∀ (out : ℕ → α) (i j : ℕ),
      (List.range TILE).foldl
        (fun out k => writeIdx out (i * TILE + j)
          (S.add (out (i * TILE + j))
            (S.mul (a (i * TILE + k)) (b (k * TILE + j)))))
        out
      = writeIdx out (i * TILE + j)
          (kcell S a b i j (out (i * TILE + j))) := by
    intro out i j
    funext r
    have h := foldl_writeIdx_accum (List.range TILE)
      (fun acc k => S.add acc (S.mul (a (i * TILE + k)) (b (k * TILE + j))))
      (i * TILE + j) out r
    by_cases hr : r = i * TILE + j
    · rw [if_pos hr] at h
      rw [writeIdx_apply, if_pos hr]
      exact h
    · rw [if_neg hr] at h
      rw [writeIdx_apply, if_neg hr]
      exact h
  have step1 : AlignedDot S a b out0
      = (List.range TILE).foldl
          (fun out i => (List.range TILE).foldl
            (fun out j => writeIdx out (i * TILE + j)
              (kcell S a b i j (out (i * TILE + j)))) out) out0 := by
    unfold AlignedDot
    apply List.foldl_ext
    intro out i _
    apply List.foldl_ext
    intro out2 j _
    exact hinner out2 i j
  have step2 := foldl_range_nested TILE
    (fun (out : ℕ → α) i j =>
      writeIdx out (i * TILE + j) (kcell S a b i j (out (i * TILE + j))))
    TILE out0
  have step3 : (List.range (TILE * TILE)).foldl
      (fun (out : ℕ → α) t =>
        writeIdx out (t / TILE * TILE + t % TILE)
          (kcell S a b (t / TILE) (t % TILE)
            (out (t / TILE * TILE + t % TILE)))) out0
    = (List.range (TILE * TILE)).foldl
      (fun (out : ℕ → α) t =>
        writeIdx out t (kcell S a b (t / TILE) (t % TILE) (out t))) out0 := by
    apply List.foldl_ext
    intro out t _
    have ht : t / TILE * TILE + t % TILE = t := by
      rw [Nat.mul_comm]
      exact Nat.div_add_mod t TILE
    rw [ht]
  have hall : AlignedDot S a b out0
      = (List.range (TILE * TILE)).foldl
          (fun (out : ℕ → α) t =>
            writeIdx out t (kcell S a b (t / TILE) (t % TILE) (out t)))
          out0 :=
    step1.trans (step2.trans step3)
  rw [hall]
  exact foldl_writeIdx_selfseq
    (fun t v => kcell S a b (t / TILE) (t % TILE) v) (TILE * TILE) out0 q

end MatmulLemmas

/-- C4: for any three (non-aliasing, here: distinct model) TILE×TILE tiles,
`AlignedDot` accumulates rather than overwrites: on return, out cell
`(i, j)` is the left fold, in increasing `k` order, of
`+ a[i*TILE+k] * b[k*TILE+j]` started from the cell's prior value
(`kcell`), for every `i, j < TILE`; instantiating the abstract scalar
operations at `ℤ` this equals the prior value plus the `k`-sum, and the
bare product or a zero-initialised value is never stored (first conjunct is
over arbitrary scalar operations, so it describes the exact float
operation order as well). -/
theorem alignedDot_accumulates {α : Type} (S : ScalarOps α)
    (a b out0 : ℕ → α) (aq bq outq : ℕ → ℤ) (i j : ℕ)
    (hi : i < TILE) (hj : j < TILE) :
    AlignedDot S a b out0 (i * TILE + j)
      = kcell S a b i j (out0 (i * TILE + j))
    ∧ AlignedDot intOps aq bq outq (i * TILE + j)
      = outq (i * TILE + j)
        + (List.range TILE).foldl
            (fun acc k => acc + aq (i * TILE + k) * bq (k * TILE + j)) 0 := by
  have key : ∀ {β : Type} (T : ScalarOps β) (x y z : ℕ → β),
      AlignedDot T x y z (i * TILE + j)
        = kcell T x y i j (z (i * TILE + j)) := by
    intro β T x y z
    have h := AlignedDot_char T x y z (i * TILE + j)
    have hq : i * TILE + j < TILE * TILE := by
      have h1 : i * TILE + j < i * TILE + TILE := by omega
      have h2 : i * TILE + TILE = (i + 1) * TILE := by ring
      have h3 : (i + 1) * TILE ≤ TILE * TILE := by
        rw [Nat.mul_comm TILE TILE]
        exact Nat.mul_le_mul_right TILE (by omega)
      omega
    rw [if_pos hq] at h
    have hdiv : (i * TILE + j) / TILE = i := by
      rw [Nat.add_comm, Nat.add_mul_div_right _ _ (by norm_num [TILE]),
        Nat.div_eq_of_lt hj, Nat.zero_add]
    have hmod : (i * TILE + j) % TILE = j := by
      rw [Nat.add_comm, Nat.add_mul_mod_self_right, Nat.mod_eq_of_lt hj]
    rw [hdiv, hmod] at h
    exact h
  refine ⟨key S a b out0, ?_⟩
  rw [key intOps aq bq outq]
  unfold kcell
  exact foldl_add_shift _ (List.range TILE) _

/-- Witness for C4 at `i = 1`, `j = 2` with concrete tiles. -/
theorem alignedDot_accumulates_witness :
    AlignedDot intOps (fun _ => 2) (fun _ => 3) (fun t : ℕ => (t : ℤ))
        (1 * TILE + 2)
      = kcell intOps (fun _ => 2) (fun _ => 3)
          1 2 ((fun t : ℕ => (t : ℤ)) (1 * TILE + 2))
    ∧ AlignedDot intOps (fun _ => 2) (fun _ => 3) (fun t : ℕ => (t : ℤ))
        (1 * TILE + 2)
      = (fun t : ℕ => (t : ℤ)) (1 * TILE + 2)
        + (List.range TILE).foldl
            (fun acc k => acc + (fun _ : ℕ => (2:ℤ)) (1 * TILE + k)
              * (fun _ : ℕ => (3:ℤ)) (k * TILE + 2)) 0 :=
  alignedDot_accumulates intOps (fun _ => 2) (fun _ => 3) (fun t : ℕ => (t : ℤ))
    (fun _ => 2) (fun _ => 3) (fun t : ℕ => (t : ℤ)) 1 2
    (by norm_num [TILE]) (by norm_num [TILE])

/-- C5: the naive `Matmul` sets each cell `(i, j)` (`i < m`, `j < p`) to
the left-fold sum over `k = 0, …, n-1` in increasing order of
`a[i*n+k] * b[k*p+j]` starting from zero (`matCell`), independently of the
output buffer's prior contents; and on
`a = [[1,2],[3,4]]`, `b = [[5,6],[7,8]]` it produces `[[19,22],[43,50]]`
(prior contents 99 everywhere). -/
theorem matmul_naive_correct {α : Type} (S : ScalarOps α) (a b : ℕ → α)
    (m n p : ℕ) (out0 out1 : ℕ → α) (i j : ℕ) (hi : i < m) (hj : j < p) :
    Matmul S a b m n p out0 (i * p + j) = matCell S a b n p i j
    ∧ Matmul S a b m n p out0 (i * p + j) = Matmul S a b m n p out1 (i * p + j)
    ∧ (∀ q, q < 4 →
        Matmul intOps (fun t => [1, 2, 3, 4].getD t 0)
          (fun t => [5, 6, 7, 8].getD t 0) 2 2 2 (fun _ => 99) q
          = [19, 22, 43, 50].getD q 0) := by
  have hp : 0 < p := by omega
  have key : ∀ (z : ℕ → α),
      Matmul S a b m n p z (i * p + j) = matCell S a b n p i j := by
    intro z
    have h := Matmul_char S a b m n p z (i * p + j)
    have hq : i * p + j < m * p := by
      have h1 : i * p + j < i * p + p := by omega
      have h2 : i * p + p = (i + 1) * p := by ring
      have h3 : (i + 1) * p ≤ m * p := Nat.mul_le_mul_right p (by omega)
      omega
    rw [if_pos hq] at h
    have hdiv : (i * p + j) / p = i := by
      rw [Nat.add_comm, Nat.add_mul_div_right _ _ hp,
        Nat.div_eq_of_lt hj, Nat.zero_add]
    have hmod : (i * p + j) % p = j := by
      rw [Nat.add_comm, Nat.add_mul_mod_self_right, Nat.mod_eq_of_lt hj]
    rw [hdiv, hmod] at h
    exact h
  refine ⟨key out0, (key out0).trans (key out1).symm, ?_⟩
  decide

/-- Witness for C5 at cell `(1, 0)` of a 2×2 multiply. -/
theorem matmul_naive_correct_witness :
    Matmul intOps (fun t => [1, 2, 3, 4].getD t 0)
        (fun t => [5, 6, 7, 8].getD t 0) 2 2 2 (fun _ => 99) (1 * 2 + 0)
      = matCell intOps (fun t => [1, 2, 3, 4].getD t 0)
          (fun t => [5, 6, 7, 8].getD t 0) 2 2 1 0 :=
  (matmul_naive_correct intOps (fun t => [1, 2, 3, 4].getD t 0)
    (fun t => [5, 6, 7, 8].getD t 0) 2 2 2 (fun _ => 99) (fun _ => 0) 1 0
    (by norm_num) (by norm_num)).1

/-- C7: every elementwise kernel writes `out[i] = f(a[i], b[i])` (resp.
`f(a[i], scalar)`) at every index `i < n` with no special-casing:
`EwiseAdd` stores `a[i] + b[i]` and `ScalarGe` stores `1` when
`a[i] ≥ val` and `0` otherwise; on `a = [1,2,3]`, `b = [4,5,6]`,
`EwiseAdd` yields `[5,7,9]` and `ScalarGe(a, 2)` yields `[0,1,1]`. -/
theorem ewise_pointwise {α : Type} (S : ScalarOps α) (a b : ℕ → α)
    (c : ℕ → ℤ) (val : ℤ) (nsz : ℕ) (out0 : ℕ → α) (out1 : ℕ → ℤ)
    (i : ℕ) (hi : i < nsz) :
    EwiseAdd S a b nsz out0 i = S.add (a i) (b i)
    ∧ ScalarGe c val nsz out1 i = (if c i ≥ val then 1 else 0)
    ∧ (∀ q, q < 3 →
        EwiseAdd intOps (fun t => [1, 2, 3].getD t 0)
          (fun t => [4, 5, 6].getD t 0) 3 (fun _ => 99) q
          = [5, 7, 9].getD q 0)
    ∧ (∀ q, q < 3 →
        ScalarGe (fun t => [1, 2, 3].getD t 0) 2 3 (fun _ => 99) q
          = [0, 1, 1].getD q 0) := by
  refine ⟨?_, ?_, by decide, by decide⟩
  · have h := foldl_writeIdx_seq0 (fun t => S.add (a t) (b t)) nsz out0 i
    rw [if_pos hi] at h
    exact h
  · have h := foldl_writeIdx_seq0
      (fun t => if c t ≥ val then (1 : ℤ) else 0) nsz out1 i
    rw [if_pos hi] at h
    exact h

section ReduceLemmas

variable {α : Type}

/-- Characterisation of the `ReduceMax` loop: starting at input position
`i` and output cell `cnt` with exactly `K` whole runs remaining, the loop
writes `runMax` values into cells `cnt, …, cnt+K-1` and leaves every other
cell untouched. -/
lemma reduceMaxLoop_char (maxF : α → α → α) (a : ℕ → α) (rs : ℕ)
    (hrs : 0 < rs) :
    ∀ (K i cnt : ℕ) (out : ℕ → α) (q : ℕ),
      reduceMaxLoop maxF a rs (i + K * rs) i cnt out q
        = if cnt ≤ q ∧ q < cnt + K then runMax maxF a rs (i + (q - cnt) * rs)
          else out q := by
  intro K
  induction K with
  | zero =>
    intro i cnt out q
    rw [reduceMaxLoop, dif_neg (by omega), if_neg (by omega)]
  | succ K ih =>
    intro i cnt out q
    have hpos : 0 < (K + 1) * rs := Nat.mul_pos (by omega) hrs
    rw [reduceMaxLoop, dif_pos ⟨by omega, hrs⟩]
    have e : i + (K + 1) * rs = (i + rs) + K * rs := by ring
    rw [e, ih]
    by_cases h1 : cnt + 1 ≤ q ∧ q < cnt + 1 + K
    · rw [if_pos h1, if_pos (by omega)]
      congr 1
      have e2 : q - cnt = (q - (cnt + 1)) + 1 := by omega
      rw [e2, Nat.succ_mul]
      ring
    · rw [if_neg h1, writeIdx_apply]
      by_cases h2 : q = cnt
      · rw [if_pos h2, if_pos (by omega)]
        have e3 : q - cnt = 0 := by omega
        rw [e3, Nat.zero_mul, Nat.add_zero]
        rfl
      · rw [if_neg h2, if_neg (by omega)]

/-- Characterisation of the `ReduceSum` loop, analogous to
`reduceMaxLoop_char`. -/
lemma reduceSumLoop_char (S : ScalarOps α) (a : ℕ → α) (rs : ℕ)
    (hrs : 0 < rs) :
    ∀ (K i cnt : ℕ) (out : ℕ → α) (q : ℕ),
      reduceSumLoop S a rs (i + K * rs) i cnt out q
        = if cnt ≤ q ∧ q < cnt + K then runSum S a rs (i + (q - cnt) * rs)
          else out q := by
  intro K
  induction K with
  | zero =>
    intro i cnt out q
    rw [reduceSumLoop, dif_neg (by omega), if_neg (by omega)]
  | succ K ih =>
    intro i cnt out q
    have hpos : 0 < (K + 1) * rs := Nat.mul_pos (by omega) hrs
    rw [reduceSumLoop, dif_pos ⟨by omega, hrs⟩]
    have e : i + (K + 1) * rs = (i + rs) + K * rs := by ring
    rw [e, ih]
    by_cases h1 : cnt + 1 ≤ q ∧ q < cnt + 1 + K
    · rw [if_pos h1, if_pos (by omega)]
      congr 1
      have e2 : q - cnt = (q - (cnt + 1)) + 1 := by omega
      rw [e2, Nat.succ_mul]
      ring
    · rw [if_neg h1, writeIdx_apply]
      by_cases h2 : q = cnt
      · rw [if_pos h2, if_pos (by omega)]
        have e3 : q - cnt = 0 := by omega
        rw [e3, Nat.zero_mul, Nat.add_zero]
        rfl
      · rw [if_neg h2, if_neg (by omega)]

/-- `ReduceMax` on an input of `outSize` whole runs: cell `c < outSize`
receives the fold of run `c`. -/
lemma ReduceMax_runs (maxF : α → α → α) (a : ℕ → α) (out0 : ℕ → α)
    (outSize rs : ℕ) (hrs : 0 < rs) (c : ℕ) (hc : c < outSize) :
    ReduceMax maxF a out0 (outSize * rs) rs c = runMax maxF a rs (c * rs) := by
  have h := reduceMaxLoop_char maxF a rs hrs outSize 0 0 out0 c
  rw [Nat.zero_add] at h
  unfold ReduceMax
  rw [h, if_pos ⟨by omega, by omega⟩, Nat.sub_zero, Nat.zero_add]

/-- `ReduceSum` on an input of `outSize` whole runs: cell `c < outSize`
receives the fold of run `c`. -/
lemma ReduceSum_runs (S : ScalarOps α) (a : ℕ → α) (out0 : ℕ → α)
    (outSize rs : ℕ) (hrs : 0 < rs) (c : ℕ) (hc : c < outSize) :
    ReduceSum S a out0 (outSize * rs) rs c = runSum S a rs (c * rs) := by
  have h := reduceSumLoop_char S a rs hrs outSize 0 0 out0 c
  rw [Nat.zero_add] at h
  unfold ReduceSum
  rw [h, if_pos ⟨by omega, by omega⟩, Nat.sub_zero, Nat.zero_add]

end ReduceLemmas

/-- C6: with `a.size = out.size * reduce_size` and `reduce_size ≥ 1`,
`ReduceMax` writes into each cell `c < out.size` the fold of `std::max`
over run `c` (`a[c*rs] … a[(c+1)*rs - 1]`) started from the run's first
element, and `ReduceSum` writes the left fold of `+` over that run started
from `0`, both in increasing index order; on `a = [1,2,3,4,5,6]` with
`reduce_size = 3` this gives `ReduceSum = [6,15]` and `ReduceMax = [3,6]`
(prior contents 99 everywhere). -/
theorem reduce_runs_correct {α : Type} (maxF : α → α → α) (S : ScalarOps α)
    (a : ℕ → α) (out0 out1 : ℕ → α) (outSize rs : ℕ) (hrs : 1 ≤ rs)
    (c : ℕ) (hc : c < outSize) :
    ReduceMax maxF a out0 (outSize * rs) rs c = runMax maxF a rs (c * rs)
    ∧ ReduceSum S a out1 (outSize * rs) rs c = runSum S a rs (c * rs)
    ∧ (∀ q, q < 2 →
        ReduceSum intOps (fun t => [1, 2, 3, 4, 5, 6].getD t 0)
          (fun _ => 99) (2 * 3) 3 q = [6, 15].getD q 0)
    ∧ (∀ q, q < 2 →
        ReduceMax max (fun t => ([1, 2, 3, 4, 5, 6] : List ℤ).getD t 0)
          (fun _ => 99) (2 * 3) 3 q = [3, 6].getD q 0) := by
  refine ⟨ReduceMax_runs maxF a out0 outSize rs (by omega) c hc,
          ReduceSum_runs S a out1 outSize rs (by omega) c hc, ?_, ?_⟩
  · intro q hq
    rw [ReduceSum_runs intOps _ _ 2 3 (by norm_num) q hq]
    interval_cases q <;> decide
  · intro q hq
    rw [ReduceMax_runs max _ _ 2 3 (by norm_num) q hq]
    interval_cases q <;> decide

/-- Witness for C6 on the spec's example at cell `1`. -/
theorem reduce_runs_correct_witness :
    ReduceMax max (fun t => ([1, 2, 3, 4, 5, 6] : List ℤ).getD t 0)
        (fun _ => 99) (2 * 3) 3 1
      = runMax max (fun t => ([1, 2, 3, 4, 5, 6] : List ℤ).getD t 0) 3 (1 * 3)
    ∧ ReduceSum intOps (fun t => [1, 2, 3, 4, 5, 6].getD t 0)
        (fun _ => 99) (2 * 3) 3 1
      = runSum intOps (fun t => [1, 2, 3, 4, 5, 6].getD t 0) 3 (1 * 3) := by
  have h := reduce_runs_correct max intOps
    (fun t => ([1, 2, 3, 4, 5, 6] : List ℤ).getD t 0)
    (fun _ => 99) (fun _ => 99) 2 3 (by norm_num) 1 (by norm_num)
  exact ⟨h.1, h.2.1⟩

/-- Witness for C7 at index `1` of length-3 buffers. -/
theorem ewise_pointwise_witness :
    EwiseAdd intOps (fun t => [1, 2, 3].getD t 0)
        (fun t => [4, 5, 6].getD t 0) 3 (fun _ => 99) 1
      = intOps.add ((fun t => ([1, 2, 3] : List ℤ).getD t 0) 1)
          ((fun t => ([4, 5, 6] : List ℤ).getD t 0) 1)
    ∧ ScalarGe (fun t => [1, 2, 3].getD t 0) 2 3 (fun _ => 99) 1
      = (if (fun t => ([1, 2, 3] : List ℤ).getD t 0) 1 ≥ 2 then 1 else 0) := by
  have h := ewise_pointwise intOps (fun t => [1, 2, 3].getD t 0)
    (fun t => [4, 5, 6].getD t 0) (fun t => [1, 2, 3].getD t 0) 2 3
    (fun _ => 99) (fun _ => 99) 1 (by norm_num)
  exact ⟨h.1, h.2.1⟩

section IndexLemmas

lemma natProd_nil : natProd [] = 1 := rfl

lemma natProd_cons (s : ℤ) (ss : List Int) :
    natProd (s :: ss) = s.toNat * natProd ss := by
  simp [natProd]

lemma natProd_reverse (l : List Int) : natProd l.reverse = natProd l := by
  unfold natProd
  rw [List.map_reverse, List.prod_reverse]

lemma idxTupleRev_zero : ∀ l : List Int,
    idxTupleRev l 0 = List.replicate l.length 0 := by
  intro l
  induction l with
  | nil => rfl
  | cons s ss ih => simp [idxTupleRev, ih, List.replicate_succ]

lemma updateRev_cons (s : ℤ) (ss : List Int) (v : ℤ) (vs : List Int) :
    updateRev (s :: ss) (v :: vs)
      = if v < s - 1 then (v + 1) :: vs
        else if vs = [] then v :: vs
        else 0 :: updateRev ss vs := rfl

lemma idxTuple_zero (shape : List Int) :
    idxTuple shape 0 = List.replicate shape.length 0 := by
  unfold idxTuple
  rw [idxTupleRev_zero, List.reverse_replicate, List.length_reverse]

/-- The row-major successor step, on the reversed lists: `updateRev` maps
the `i`-th tuple to the `(i+1)`-st whenever the `(i+1)`-st exists. -/
lemma updateRev_succ : ∀ l : List Int, (∀ s ∈ l, 0 < s) → ∀ i : ℕ,
    i + 1 < natProd l →
    updateRev l (idxTupleRev l i) = idxTupleRev l (i + 1) := by
  intro l
  induction l with
  | nil =>
    intro _ i hi
    rw [natProd_nil] at hi
    omega
  | cons s ss ih =>
    intro hpos i hi
    have hs : 0 < s := hpos s (by simp)
    have hs' : 0 < s.toNat := by omega
    rw [natProd_cons] at hi
    have hmd := Nat.mod_add_div i s.toNat
    by_cases hlt : i % s.toNat < s.toNat - 1
    · have h2 := (Nat.div_mod_unique hs').mpr
        (⟨by omega, by omega⟩ :
          i % s.toNat + 1 + s.toNat * (i / s.toNat) = i + 1
          ∧ i % s.toNat + 1 < s.toNat)
      simp only [idxTupleRev]
      rw [updateRev_cons,
        if_pos (by omega : ((i % s.toNat : ℕ) : ℤ) < s - 1), h2.1, h2.2]
      push_cast
      ring_nf
    · have hmax : i % s.toNat = s.toNat - 1 := by
        have := Nat.mod_lt i hs'
        omega
      cases ss with
      | nil =>
        exfalso
        rw [natProd_nil] at hi
        have hilt : i < s.toNat := by omega
        have := Nat.mod_eq_of_lt hilt
        omega
      | cons s2 ss2 =>
        have hpos' : ∀ x ∈ s2 :: ss2, 0 < x := fun x hx => hpos x (by simp [hx])
        have hstep : i + 1 = s.toNat * (i / s.toNat + 1) := by
          rw [Nat.mul_add, Nat.mul_one]
          omega
        have hlt2 : i / s.toNat + 1 < natProd (s2 :: ss2) := by
          by_contra hcon
          push_neg at hcon
          have := Nat.mul_le_mul_left s.toNat hcon
          omega
        have h2 := (Nat.div_mod_unique hs').mpr
          (⟨by omega, hs'⟩ :
            0 + s.toNat * (i / s.toNat + 1) = i + 1 ∧ 0 < s.toNat)
        simp only [idxTupleRev]
        rw [updateRev_cons,
          if_neg (by omega : ¬ ((i % s.toNat : ℕ) : ℤ) < s - 1),
          if_neg (by simp [idxTupleRev] :
            ¬ (((i / s.toNat % s2.toNat : ℕ) : ℤ)
                :: idxTupleRev ss2 (i / s.toNat / s2.toNat)) = []),
          h2.1, h2.2]
        have hih := ih hpos' (i / s.toNat) hlt2
        simp only [idxTupleRev] at hih
        rw [hih]
        simp

/-- The tuple sequence the view-transfer loops generate coincides with the
row-major enumeration, as long as the enumeration has not run out. -/
lemma ivSeq_eq_idxTuple (shape : List Int) (hpos : ∀ s ∈ shape, 0 < s) :
    ∀ i : ℕ, i < natProd shape → ivSeq shape i = idxTuple shape i := by
  intro i
  induction i with
  | zero =>
    intro _
    rw [ivSeq, idxTuple_zero]
  | succ i ih =>
    intro hi
    rw [ivSeq, ih (by omega), idxTuple, idxTuple, updateIndices,
      List.reverse_reverse,
      updateRev_succ shape.reverse (by simpa using hpos) i
        (by rwa [natProd_reverse])]

lemma rankRev_idxTupleRev : ∀ l : List Int, ∀ i : ℕ, i < natProd l →
    rankRev l (idxTupleRev l i) = i := by
  intro l
  induction l with
  | nil =>
    intro i hi
    rw [natProd_nil] at hi
    interval_cases i
    rfl
  | cons s ss ih =>
    intro i hi
    rw [natProd_cons] at hi
    have hs' : 0 < s.toNat := by
      rcases Nat.eq_zero_or_pos s.toNat with h | h
      · rw [h] at hi
        omega
      · exact h
    have hdl : i / s.toNat < natProd ss := Nat.div_lt_of_lt_mul hi
    simp only [idxTupleRev, rankRev]
    rw [Int.toNat_natCast, ih (i / s.toNat) hdl]
    exact Nat.mod_add_div i s.toNat

lemma idxTupleRev_rankRev : ∀ (l iv : List Int), inBds l iv →
    idxTupleRev l (rankRev l iv) = iv ∧ rankRev l iv < natProd l := by
  intro l
  induction l with
  | nil =>
    intro iv hb
    cases iv with
    | nil => exact ⟨rfl, by rw [natProd_nil]; exact Nat.zero_lt_one⟩
    | cons v vs => exact absurd hb (by simp [inBds])
  | cons s ss ih =>
    intro iv hb
    cases iv with
    | nil => exact absurd hb (by simp [inBds])
    | cons v vs =>
      obtain ⟨⟨h0, hv⟩, hbs⟩ := hb
      obtain ⟨ihv, ihr⟩ := ih vs hbs
      have hs' : 0 < s.toNat := by omega
      have hvn : v.toNat < s.toNat := by omega
      simp only [rankRev, idxTupleRev, natProd_cons]
      have hmod : (v.toNat + s.toNat * rankRev ss vs) % s.toNat = v.toNat := by
        rw [Nat.add_mul_mod_self_left, Nat.mod_eq_of_lt hvn]
      have hdiv : (v.toNat + s.toNat * rankRev ss vs) / s.toNat
          = rankRev ss vs := by
        rw [Nat.add_mul_div_left _ _ hs', Nat.div_eq_of_lt hvn, Nat.zero_add]
      refine ⟨?_, ?_⟩
      · rw [hmod, hdiv, ihv, Int.toNat_of_nonneg h0]
      · have h1 : rankRev ss vs + 1 ≤ natProd ss := by omega
        have h2 : s.toNat * (rankRev ss vs + 1) ≤ s.toNat * natProd ss :=
          Nat.mul_le_mul_left s.toNat h1
        have h3 : s.toNat * (rankRev ss vs + 1)
            = s.toNat * rankRev ss vs + s.toNat := by ring
        omega

lemma inBds_iff_forall₂ : ∀ l iv : List Int,
    inBds l iv ↔ List.Forall₂ (fun s v => 0 ≤ v ∧ v < s) l iv := by
  intro l
  induction l with
  | nil =>
    intro iv
    cases iv <;> simp [inBds]
  | cons s ss ih =>
    intro iv
    cases iv with
    | nil => simp [inBds]
    | cons v vs => simp [inBds, List.forall₂_cons, ih, and_comm]

lemma inBds_reverse (l iv : List Int) :
    inBds l.reverse iv.reverse ↔ inBds l iv := by
  rw [inBds_iff_forall₂, inBds_iff_forall₂]
  exact List.forall₂_reverse_iff

lemma idxTupleRev_inBds : ∀ l : List Int, (∀ s ∈ l, 0 < s) → ∀ i : ℕ,
    inBds l (idxTupleRev l i) := by
  intro l
  induction l with
  | nil => intro _ i; simp [idxTupleRev, inBds]
  | cons s ss ih =>
    intro hpos i
    have hs : 0 < s := hpos s (by simp)
    have hs' : 0 < s.toNat := by omega
    have hm := Nat.mod_lt i hs'
    refine ⟨⟨by omega, by omega⟩, ih (fun x hx => hpos x (by simp [hx])) _⟩

end IndexLemmas

section TransferLemmas

variable {α : Type}

/-- The first state component of every view-transfer loop after `N` steps
is the `N`-fold `updateIndices` iterate of the zero tuple. -/
lemma foldl_iv_fst (shape : List Int)
    (f : List Int × (ℕ → α) → ℕ → (ℕ → α)) :
    ∀ (N : ℕ) (out0 : ℕ → α),
      ((List.range N).foldl
        (fun st i => (updateIndices shape st.1, f st i))
        (List.replicate shape.length 0, out0)).1 = ivSeq shape N := by
  intro N
  induction N with
  | zero => intro out0; rfl
  | succ N ih =>
    intro out0
    rw [List.range_succ, List.foldl_append, List.foldl_cons, List.foldl_nil]
    exact congrArg (updateIndices shape) (ih out0)

/-- Pointwise characterisation of `Compact`: output cell `q < outSize`
holds the input element at the location resolved from the `q`-th tuple of
the traversal; other positions keep their prior contents. -/
lemma Compact_app (a out0 : ℕ → α) (shape strides : List Int)
    (offset : ℕ) :
    ∀ (N q : ℕ),
      Compact a out0 N shape strides offset q
        = if q < N then a (getLocation strides offset (ivSeq shape q)).toNat
          else out0 q := by
  intro N
  induction N with
  | zero =>
    intro q
    rw [if_neg (by omega)]
    rfl
  | succ N ih =>
    intro q
    unfold Compact
    rw [List.range_succ, List.foldl_append, List.foldl_cons, List.foldl_nil]
    set G := (List.range N).foldl
      (fun (st : List Int × (ℕ → α)) i =>
        (updateIndices shape st.1,
         writeIdx st.2 i (a (getLocation strides offset st.1).toNat)))
      (List.replicate shape.length 0, out0) with hG
    show writeIdx G.2 N (a (getLocation strides offset G.1).toNat) q = _
    have h1 : G.1 = ivSeq shape N := by
      rw [hG]
      exact foldl_iv_fst shape
        (fun st i => writeIdx st.2 i (a (getLocation strides offset st.1).toNat))
        N out0
    have h2 : ∀ r, G.2 r
        = if r < N then a (getLocation strides offset (ivSeq shape r)).toNat
          else out0 r := by
      intro r
      have h := ih r
      unfold Compact at h
      rw [← hG] at h
      exact h
    rw [writeIdx_apply]
    by_cases hq : q = N
    · rw [if_pos hq, if_pos (by omega), h1, hq]
    · rw [if_neg hq, h2 q]
      by_cases hq2 : q < N
      · rw [if_pos hq2, if_pos (by omega)]
      · rw [if_neg hq2, if_neg (by omega)]

/-- If every value the `EwiseSetitem` loop writes equals the current
contents of the location it writes to, the output buffer is left pointwise
unchanged. -/
lemma setitem_keeps (c B : ℕ → α) (shape strides : List Int) (offset : ℕ) :
    ∀ N : ℕ,
      (∀ i, i < N →
        c i = B (getLocation strides offset (ivSeq shape i)).toNat) →
      ∀ q, EwiseSetitem c N B shape strides offset q = B q := by
  intro N
  induction N with
  | zero => intro _ q; rfl
  | succ N ih =>
    intro hc q
    unfold EwiseSetitem
    rw [List.range_succ, List.foldl_append, List.foldl_cons, List.foldl_nil]
    set G := (List.range N).foldl
      (fun (st : List Int × (ℕ → α)) i =>
        (updateIndices shape st.1,
         writeIdx st.2 (getLocation strides offset st.1).toNat (c i)))
      (List.replicate shape.length 0, B) with hG
    show writeIdx G.2 (getLocation strides offset G.1).toNat (c N) q = B q
    have h1 : G.1 = ivSeq shape N := by
      rw [hG]
      exact foldl_iv_fst shape
        (fun st i => writeIdx st.2 (getLocation strides offset st.1).toNat (c i))
        N B
    have h2 : ∀ r, G.2 r = B r := by
      intro r
      have h := ih (fun i hi => hc i (by omega)) r
      unfold EwiseSetitem at h
      rw [← hG] at h
      exact h
    rw [writeIdx_apply]
    by_cases hq : q = (getLocation strides offset G.1).toNat
    · rw [if_pos hq, hc N (by omega), hq, h1]
    · rw [if_neg hq]
      exact h2 q

end TransferLemmas

/-- C2: with a shape of rank ≥ 1 with positive axis sizes, strides of the
same rank, `outSize` equal to the element count of the shape, and every
resolved location in bounds, `Compact` writes
`out[i] = a[offset + Σ_j strides[j] * idx_i[j]]` for every `i < outSize`,
where `idx_i` (`idxTuple shape i`, component `j` equal to
`(i / Π_{j' > j} shape[j']) mod shape[j]`) is the `i`-th multi-index of the
shape in row-major last-axis-fastest order; the enumeration hits every
in-bounds multi-index exactly once (injectivity and completeness below),
and the input buffer `a` is only read (the model returns a new `out` and
never modifies `a`). -/
theorem compact_writes_row_major {α : Type} (a out0 : ℕ → α)
    (shape strides : List Int) (offset : ℕ) (outSize asize : ℕ)
    (hrank : shape ≠ []) (hpos : ∀ s ∈ shape, 0 < s)
    (hlen : strides.length = shape.length)
    (hsize : outSize = natProd shape)
    (hbnd : ∀ i, i < outSize →
      0 ≤ getLocation strides offset (idxTuple shape i)
      ∧ getLocation strides offset (idxTuple shape i) < (asize : ℤ)) :
    (∀ i, i < outSize →
      Compact a out0 outSize shape strides offset i
        = a (getLocation strides offset (idxTuple shape i)).toNat)
    ∧ (∀ i j, i < outSize → j < outSize →
        idxTuple shape i = idxTuple shape j → i = j)
    ∧ (∀ i, i < outSize → inBds shape (idxTuple shape i))
    ∧ (∀ iv, inBds shape iv → ∃ i, i < outSize ∧ idxTuple shape i = iv) := by
  subst hsize
  have hposr : ∀ s ∈ shape.reverse, 0 < s := by simpa using hpos
  refine ⟨?_, ?_, ?_, ?_⟩
  · intro i hi
    rw [Compact_app, if_pos hi, ivSeq_eq_idxTuple shape hpos i hi]
  · intro i j hi hj hij
    have hr : idxTupleRev shape.reverse i = idxTupleRev shape.reverse j := by
      have := congrArg List.reverse hij
      unfold idxTuple at this
      rwa [List.reverse_reverse, List.reverse_reverse] at this
    have h1 := rankRev_idxTupleRev shape.reverse i (by rwa [natProd_reverse])
    have h2 := rankRev_idxTupleRev shape.reverse j (by rwa [natProd_reverse])
    rw [← h1, ← h2, hr]
  · intro i _
    have h := idxTupleRev_inBds shape.reverse hposr i
    have h2 := (inBds_reverse shape (idxTuple shape i)).mp
    apply h2
    unfold idxTuple
    rwa [List.reverse_reverse]
  · intro iv hb
    refine ⟨rankRev shape.reverse iv.reverse, ?_, ?_⟩
    · have := (idxTupleRev_rankRev shape.reverse iv.reverse
        ((inBds_reverse shape iv).mpr hb)).2
      rwa [natProd_reverse] at this
    · have h := (idxTupleRev_rankRev shape.reverse iv.reverse
        ((inBds_reverse shape iv).mpr hb)).1
      unfold idxTuple
      rw [h, List.reverse_reverse]

/-- Witness for C2: shape `[2,3]`, row-major strides `[3,1]`, offset 0;
output cell 4 reads the resolved location of the 5th row-major tuple. -/
theorem compact_writes_row_major_witness :
    Compact (fun t : ℕ => (t : ℤ)) (fun _ => 0) 6 [2, 3] [3, 1] 0 4
      = (fun t : ℕ => (t : ℤ))
          ((getLocation [3, 1] 0 (idxTuple [2, 3] 4)).toNat) := by
  have h := compact_writes_row_major (fun t : ℕ => (t : ℤ)) (fun _ => 0)
    [2, 3] [3, 1] 0 6 6 (by simp) (by decide) rfl (by decide) (by decide)
  exact h.1 4 (by norm_num)

/-- C3: compacting a view and writing the compact buffer back through the
same view leaves the backing buffer pointwise unchanged: every location the
view reaches is rewritten with the value `Compact` read from it (also under
aliasing, where several tuples resolve to one location), and unreachable
locations are never written. -/
theorem compact_setitem_roundtrip {α : Type} (B c0 : ℕ → α)
    (shape strides : List Int) (offset bsize : ℕ)
    (hrank : shape ≠ []) (hpos : ∀ s ∈ shape, 0 < s)
    (hlen : strides.length = shape.length)
    (hbnd : ∀ i, i < natProd shape →
      0 ≤ getLocation strides offset (idxTuple shape i)
      ∧ getLocation strides offset (idxTuple shape i) < (bsize : ℤ)) :
    ∀ t, EwiseSetitem (Compact B c0 (natProd shape) shape strides offset)
        (natProd shape) B shape strides offset t = B t := by
  intro t
  apply setitem_keeps
  intro i hi
  rw [Compact_app, if_pos hi]

/-- Witness for C3: a transposed 2×2 view (strides `[1,2]`) of a length-4
buffer; location 2 is unchanged by the round-trip. -/
theorem compact_setitem_roundtrip_witness :
    EwiseSetitem
        (Compact (fun t : ℕ => (t : ℤ)) (fun _ => 0)
          (natProd [2, 2]) [2, 2] [1, 2] 0)
        (natProd [2, 2]) (fun t : ℕ => (t : ℤ)) [2, 2] [1, 2] 0 2
      = (fun t : ℕ => (t : ℤ)) 2 :=
  compact_setitem_roundtrip (fun t : ℕ => (t : ℤ)) (fun _ => 0)
    [2, 2] [1, 2] 0 4 (by simp) (by decide) rfl (by decide) 2

/-- C9: when the shape contains a zero-sized axis the element product is 0,
and each of `Compact`, `EwiseSetitem` and `ScalarSetitem`, driven by the
supplied element count (`out.size`, `a.size`, `size` respectively, equal to
that product), performs zero iterations: every buffer is left exactly
unchanged. -/
theorem zero_sized_axis_noop {α : Type} (a out0 out1 out2 : ℕ → α)
    (val : α) (shape strides : List Int) (offset : ℕ)
    (hz : (0 : ℤ) ∈ shape) :
    natProd shape = 0
    ∧ (∀ t, Compact a out0 (natProd shape) shape strides offset t = out0 t)
    ∧ (∀ t, EwiseSetitem a (natProd shape) out1 shape strides offset t
        = out1 t)
    ∧ (∀ t, ScalarSetitem (natProd shape) val out2 shape strides offset t
        = out2 t) := by
  have h0 : natProd shape = 0 := by
    unfold natProd
    exact List.prod_eq_zero (List.mem_map.mpr ⟨0, hz, rfl⟩)
  refine ⟨h0, ?_, ?_, ?_⟩ <;> intro t <;> rw [h0] <;> rfl

/-- Witness for C9 with shape `[2,0,3]` at position 5. -/
theorem zero_sized_axis_noop_witness :
    natProd [2, 0, 3] = 0
    ∧ (∀ t, Compact (fun t : ℕ => (t : ℤ)) (fun _ => 7)
        (natProd [2, 0, 3]) [2, 0, 3] [0, 0, 1] 0 t = (fun _ : ℕ => (7 : ℤ)) t)
    ∧ (∀ t, EwiseSetitem (fun t : ℕ => (t : ℤ)) (natProd [2, 0, 3])
        (fun _ => 8) [2, 0, 3] [0, 0, 1] 0 t = (fun _ : ℕ => (8 : ℤ)) t)
    ∧ (∀ t, ScalarSetitem (natProd [2, 0, 3]) 3 (fun _ => 9)
        [2, 0, 3] [0, 0, 1] 0 t = (fun _ : ℕ => (9 : ℤ)) t) :=
  zero_sized_axis_noop (fun t : ℕ => (t : ℤ)) (fun _ => 7) (fun _ => 8)
    (fun _ => 9) 3 [2, 0, 3] [0, 0, 1] 0 (by decide)

section UpdLoopLemmas

lemma set_concat (l : List Int) (a b : ℤ) :
    (l ++ [a]).set l.length b = l ++ [b] := by
  induction l with
  | nil => rfl
  | cons x l ih => simp [List.set, ih]

/-- `updLoop` never looks at positions above its start index, so a trailing
element it does not reach can be split off. -/
lemma updLoop_append : ∀ (i : ℕ) (shape iv : List Int) (s w : ℤ),
    i < iv.length → i < shape.length →
    updLoop (shape ++ [s]) i (iv ++ [w])
      = (updLoop shape i iv).map (fun l => l ++ [w]) := by
  intro i
  induction i with
  | zero =>
    intro shape iv s w hiv hsh
    rw [updLoop, updLoop,
      List.getElem?_append, if_pos hiv,
      List.getElem?_append, if_pos hsh]
    rw [List.getElem?_eq_getElem hiv, List.getElem?_eq_getElem hsh]
    dsimp only
    by_cases h : iv[0] < shape[0] - 1
    · rw [if_pos h, if_pos h, Option.map_some']
      rw [List.set_append, if_pos hiv]
    · rw [if_neg h, if_neg h, Option.map_some']
  | succ i ih =>
    intro shape iv s w hiv hsh
    rw [updLoop, updLoop,
      List.getElem?_append, if_pos hiv,
      List.getElem?_append, if_pos hsh]
    rw [List.getElem?_eq_getElem hiv, List.getElem?_eq_getElem hsh]
    dsimp only
    by_cases h : iv[i + 1] < shape[i + 1] - 1
    · rw [if_pos h, if_pos h, Option.map_some']
      rw [List.set_append, if_pos hiv]
    · rw [if_neg h, if_neg h]
      rw [List.set_append, if_pos hiv]
      exact ih shape (iv.set (i + 1) 0) s w
        (by rw [List.length_set]; omega) (by omega)

/-- The index-level loop model agrees with the list-recursion model of
`updateIndices` on every nonempty tuple of matching rank. -/
lemma updLoop_eq_updateIndices :
    ∀ (iv shape : List Int), iv ≠ [] → iv.length = shape.length →
      updLoop shape (iv.length - 1) iv = some (updateIndices shape iv) := by
  intro iv
  induction iv using List.reverseRecOn with
  | nil => intro shape h _; exact absurd rfl h
  | append_singleton ys v ih =>
    intro shape _ hlen
    rcases List.eq_nil_or_concat shape with hsh | ⟨ss, s, hsh⟩
    · rw [hsh] at hlen
      simp at hlen
    subst hsh
    rw [List.concat_eq_append] at hlen ⊢
    have hlen2 : ys.length = ss.length := by simpa using hlen
    have hylen : (ys ++ [v]).length = ys.length + 1 := by simp
    rw [hylen]
    simp only [Nat.add_sub_cancel]
    cases ys with
    | nil =>
      have hss : ss = [] := by
        cases ss with
        | nil => rfl
        | cons a l => simp at hlen2
      subst hss
      show updLoop ([] ++ [s]) 0 ([] ++ [v]) = _
      simp only [List.nil_append]
      have hL : updLoop [s] 0 [v]
          = if v < s - 1 then some [v + 1] else some [v] := rfl
      have hR : updateIndices [s] [v]
          = if v < s - 1 then [v + 1] else [v] := by
        unfold updateIndices
        simp only [List.reverse_singleton]
        rw [updateRev_cons]
        by_cases h : v < s - 1
        · rw [if_pos h, if_pos h]
          rfl
        · rw [if_neg h, if_neg h, if_pos rfl]
          rfl
      rw [hL, hR]
      by_cases h : v < s - 1 <;> simp [h]
    | cons y ys2 =>
      have hne2 : (y :: ys2) ≠ ([] : List Int) := by simp
      have hlen3 : ys2.length + 1 = ss.length := by simpa using hlen2
      show updLoop (ss ++ [s]) (ys2.length + 1) ((y :: ys2) ++ [v]) = _
      rw [updLoop]
      have hidx : (((y :: ys2) ++ [v])[ys2.length + 1]?) = some v := by
        have := List.getElem?_concat_length (y :: ys2) v
        simpa using this
      have hsidx : ((ss ++ [s])[ys2.length + 1]?) = some s := by
        have := List.getElem?_concat_length ss s
        rw [← hlen3] at this
        simpa using this
      rw [hidx, hsidx]
      dsimp only
      by_cases h : v < s - 1
      · rw [if_pos h]
        have hset : ((y :: ys2) ++ [v]).set (ys2.length + 1) (v + 1)
            = (y :: ys2) ++ [v + 1] := by
          have := set_concat (y :: ys2) v (v + 1)
          simpa using this
        have hR : updateIndices (ss ++ [s]) ((y :: ys2) ++ [v])
            = (y :: ys2) ++ [v + 1] := by
          unfold updateIndices
          rw [List.reverse_append, List.reverse_append]
          simp only [List.reverse_singleton, List.singleton_append]
          rw [updateRev_cons, if_pos h, List.reverse_cons,
            List.reverse_reverse]
        rw [hset, hR]
      · rw [if_neg h]
        have hset0 : ((y :: ys2) ++ [v]).set (ys2.length + 1) 0
            = (y :: ys2) ++ [0] := by
          have := set_concat (y :: ys2) v 0
          simpa using this
        rw [hset0]
        rw [updLoop_append ys2.length ss (y :: ys2) s 0 (by simp) (by omega)]
        have hih := ih ss hne2 (by simpa using hlen2)
        simp only [List.length_cons, Nat.add_sub_cancel] at hih
        rw [hih, Option.map_some']
        have hR : updateIndices (ss ++ [s]) ((y :: ys2) ++ [v])
            = updateIndices ss (y :: ys2) ++ [0] := by
          unfold updateIndices
          rw [List.reverse_append, List.reverse_append]
          simp only [List.reverse_singleton, List.singleton_append]
          rw [updateRev_cons, if_neg h,
            if_neg (show ¬ (y :: ys2).reverse = [] by simp),
            List.reverse_cons]
        rw [hR]

/-- Applied to the final row-major tuple (`shape[i] - 1` in every
component), `updateIndices` zeroes every axis after the first and leaves
the first at its maximum. -/
lemma updateIndices_final (s : ℤ) (ss : List Int) :
    updateIndices (s :: ss) ((s :: ss).map (fun x => x - 1))
      = (s - 1) :: List.replicate ss.length 0 := by
  have key : ∀ (l : List Int) (a : ℤ),
      updateRev (l ++ [a]) ((l ++ [a]).map (fun x => x - 1))
        = List.replicate l.length 0 ++ [a - 1] := by
    intro l
    induction l with
    | nil =>
      intro a
      simp only [List.nil_append, List.map_cons, List.map_nil]
      rw [updateRev_cons, if_neg (by omega), if_pos rfl]
      rfl
    | cons x l ihl =>
      intro a
      simp only [List.cons_append, List.map_cons]
      rw [updateRev_cons, if_neg (by omega),
        if_neg (by simp : ¬ ((l ++ [a]).map (fun x => x - 1)) = []),
        ihl a]
      simp [List.replicate_succ]
  unfold updateIndices
  have h1 : (s :: ss).reverse = ss.reverse ++ [s] := by
    rw [List.reverse_cons]
  have h2 : ((s :: ss).map (fun x => x - 1)).reverse
      = (ss.reverse ++ [s]).map (fun x => x - 1) := by
    rw [← List.map_reverse, h1]
  rw [h1, h2, key ss.reverse s, List.reverse_append, List.reverse_replicate,
    List.length_reverse]
  rfl


end UpdLoopLemmas

/-- C10 counterexample: on shape `[2,2]` the final row-major tuple `[1,1]`
is in bounds, but `updateIndices` maps it to `[1,0]`, not to itself — the
claimed fixed-point property fails for rank ≥ 2. -/
theorem updateIndices_final_not_fixed :
    inBds [2, 2] [1, 1]
    ∧ updateIndicesChecked [2, 2] [1, 1] = some [1, 0]
    ∧ updateIndices [2, 2] [1, 1] = [1, 0]
    ∧ [1, 0] ≠ ([1, 1] : List Int) := by
  refine ⟨?_, by decide, by decide, by decide⟩
  norm_num [inBds]

/-- C10 (amended): for every shape of rank ≥ 1 and every current tuple of
the same rank with in-bounds components, `updateIndices` terminates with
every access to `indices_vector` and `shape` at an in-bounds position
(0 ≤ i < rank) — the bounds-checked model returns `some`, agreeing with the
list model — and applied to the final row-major tuple it returns
`(shape[0]-1, 0, …, 0)`: it zeroes every axis after the first and leaves
the first at its maximum, so the final tuple is a fixed point exactly when
every axis after the first has size 1 (in particular for rank 1). -/
theorem updateIndices_inbounds_and_final (s : ℤ) (ss : List Int)
    (iv : List Int) (hlen : iv.length = (s :: ss).length)
    (hb : inBds (s :: ss) iv) :
    updateIndicesChecked (s :: ss) iv = some (updateIndices (s :: ss) iv)
    ∧ updateIndicesChecked (s :: ss) ((s :: ss).map (fun x => x - 1))
      = some ((s - 1) :: List.replicate ss.length 0) := by
  constructor
  · have hiv : iv ≠ [] := by
      intro hcon
      rw [hcon] at hlen
      simp at hlen
    unfold updateIndicesChecked
    have hl : iv.length = ss.length + 1 := by simpa using hlen
    rw [hl]
    have := updLoop_eq_updateIndices iv (s :: ss) hiv hlen
    rw [hl] at this
    simpa using this
  · have hmne : ((s :: ss).map (fun x => x - 1)) ≠ [] := by simp
    have hmlen : ((s :: ss).map (fun x => x - 1)).length
        = (s :: ss).length := by simp
    unfold updateIndicesChecked
    have hl : ((s :: ss).map (fun x => x - 1)).length = ss.length + 1 := by
      simpa using hmlen
    rw [hl]
    have hbr := updLoop_eq_updateIndices ((s :: ss).map (fun x => x - 1))
      (s :: ss) hmne hmlen
    rw [hl] at hbr
    simp only [Nat.add_sub_cancel] at hbr
    show updLoop (s :: ss) ss.length ((s :: ss).map (fun x => x - 1))
      = some ((s - 1) :: List.replicate ss.length 0)
    rw [hbr, updateIndices_final]

/-- Witness for the amended C10 at shape `[2,3]`, tuple `[0,1]`. -/
theorem updateIndices_inbounds_and_final_witness :
    updateIndicesChecked [2, 3] [0, 1]
      = some (updateIndices [2, 3] [0, 1])
    ∧ updateIndicesChecked [2, 3] ([2, 3].map (fun x => x - 1))
      = some ((2 - 1) :: List.replicate 1 0) := by
  have h := updateIndices_inbounds_and_final 2 [3] [0, 1] rfl
    (by norm_num [inBds])
  exact h

section TiledLemmas

variable {α : Type}

/-- Pointwise characterisation of the tile-extraction loops: tile cell
`q < TILE*TILE` receives `src[base + q]`; no other cell is written. -/
lemma fillTile_app (t0 src : ℕ → α) (base : ℕ) (q : ℕ) :
    fillTile t0 src base q
      = if q < TILE * TILE then src (base + q) else t0 q := by
  have step1 : fillTile t0 src base
      = (List.range (TILE * TILE)).foldl
          (fun (t : ℕ → α) x =>
            writeIdx t (x / TILE * TILE + x % TILE)
              (src (base + x / TILE * TILE + x % TILE))) t0 :=
    foldl_range_nested TILE
      (fun (t : ℕ → α) ii jj =>
        writeIdx t (ii * TILE + jj) (src (base + ii * TILE + jj)))
      TILE t0
  have step2 : (List.range (TILE * TILE)).foldl
      (fun (t : ℕ → α) x =>
        writeIdx t (x / TILE * TILE + x % TILE)
          (src (base + x / TILE * TILE + x % TILE))) t0
    = (List.range (TILE * TILE)).foldl
      (fun (t : ℕ → α) x => writeIdx t x (src (base + x))) t0 := by
    apply List.foldl_ext
    intro t x _
    have h1 : x / TILE * TILE + x % TILE = x := by
      rw [Nat.mul_comm]
      exact Nat.div_add_mod x TILE
    have h2 : base + x / TILE * TILE + x % TILE = base + x := by
      rw [Nat.add_assoc, h1]
    rw [h1, h2]
  rw [step1.trans step2]
  exact foldl_writeIdx_seq0 (fun x => src (base + x)) (TILE * TILE) t0 q

/-- Pointwise characterisation of the write-back loops: positions
`base, …, base + TILE*TILE - 1` receive the accumulator tile; every other
position keeps its prior contents. -/
lemma writeBackTile_app (out tmp : ℕ → α) (base : ℕ) (q : ℕ) :
    writeBackTile out tmp base q
      = if base ≤ q ∧ q < base + TILE * TILE then tmp (q - base)
        else out q := by
  have step1 : writeBackTile out tmp base
      = (List.range (TILE * TILE)).foldl
          (fun (o : ℕ → α) x =>
            writeIdx o (base + x / TILE * TILE + x % TILE)
              (tmp (x / TILE * TILE + x % TILE))) out :=
    foldl_range_nested TILE
      (fun (o : ℕ → α) ii jj =>
        writeIdx o (base + ii * TILE + jj) (tmp (ii * TILE + jj)))
      TILE out
  have step2 : (List.range (TILE * TILE)).foldl
      (fun (o : ℕ → α) x =>
        writeIdx o (base + x / TILE * TILE + x % TILE)
          (tmp (x / TILE * TILE + x % TILE))) out
    = (List.range (TILE * TILE)).foldl
      (fun (o : ℕ → α) x => writeIdx o (base + x) (tmp x)) out := by
    apply List.foldl_ext
    intro o x _
    have h1 : x / TILE * TILE + x % TILE = x := by
      rw [Nat.mul_comm]
      exact Nat.div_add_mod x TILE
    have h2 : base + x / TILE * TILE + x % TILE = base + x := by
      rw [Nat.add_assoc, h1]
    rw [h1, h2]
  rw [step1.trans step2]
  exact foldl_writeIdx_seq base tmp (TILE * TILE) out q

/-- The reduction loop of `MatmulTiled` over `N` blocks: whatever the
entering scratch-tile contents, accumulator cell `r < TILE*TILE` ends as
the block-by-block, then in-block, left fold of the products — a single
running accumulator started at zero. -/
lemma MatmulTiled_inner (S : ScalarOps α) (a b : ℕ → α) (n p : ℕ)
    (i j : ℕ) :
    ∀ (N : ℕ) (ta0 tb0 : ℕ → α) (r : ℕ), r < TILE * TILE →
      ((List.range N).foldl
        (fun (st2 : ((ℕ → α) × (ℕ → α)) × (ℕ → α)) k =>
          let ta := fillTile st2.1.1 a (i * n * TILE + k * TILE * TILE)
          let tb := fillTile st2.1.2 b (k * p * TILE + j * TILE * TILE)
          ((ta, tb), AlignedDot S ta tb st2.2))
        ((ta0, tb0), fun _ => S.zero)).2 r
      = (List.range N).foldl
          (fun v kb => (List.range TILE).foldl
            (fun acc kk => S.add acc
              (S.mul (a (i * n * TILE + kb * TILE * TILE + (r / TILE * TILE + kk)))
                     (b (kb * p * TILE + j * TILE * TILE + (kk * TILE + r % TILE)))))
            v) S.zero := by
  intro N
  induction N with
  | zero => intro ta0 tb0 r _; rfl
  | succ N ih =>
    intro ta0 tb0 r hr
    rw [List.range_succ, List.foldl_append, List.foldl_cons, List.foldl_nil,
      List.foldl_append, List.foldl_cons, List.foldl_nil]
    set G := (List.range N).foldl
      (fun (st2 : ((ℕ → α) × (ℕ → α)) × (ℕ → α)) k =>
        let ta := fillTile st2.1.1 a (i * n * TILE + k * TILE * TILE)
        let tb := fillTile st2.1.2 b (k * p * TILE + j * TILE * TILE)
        ((ta, tb), AlignedDot S ta tb st2.2))
      ((ta0, tb0), fun _ => S.zero) with hG
    show AlignedDot S
        (fillTile G.1.1 a (i * n * TILE + N * TILE * TILE))
        (fillTile G.1.2 b (N * p * TILE + j * TILE * TILE)) G.2 r = _
    rw [AlignedDot_char, if_pos hr]
    have h2 : G.2 r = (List.range N).foldl
        (fun v kb => (List.range TILE).foldl
          (fun acc kk => S.add acc
            (S.mul (a (i * n * TILE + kb * TILE * TILE + (r / TILE * TILE + kk)))
                   (b (kb * p * TILE + j * TILE * TILE + (kk * TILE + r % TILE)))))
          v) S.zero := by
      rw [hG]
      exact ih ta0 tb0 r hr
    unfold kcell
    rw [h2]
    apply List.foldl_ext
    intro acc kk hkk
    rw [List.mem_range] at hkk
    rw [fillTile_app, if_pos (by simp only [TILE] at hr hkk ⊢; omega),
      fillTile_app, if_pos (by simp only [TILE] at hr hkk ⊢; omega)]

/-- Single-cell form of `Matmul_char` at a logical cell `(i, j)`. -/
lemma Matmul_apply {α : Type} (S : ScalarOps α) (a b : ℕ → α)
    (m n p : ℕ) (out0 : ℕ → α) (i j : ℕ) (hi : i < m) (hj : j < p) :
    Matmul S a b m n p out0 (i * p + j) = matCell S a b n p i j := by
  have hp : 0 < p := by omega
  have h := Matmul_char S a b m n p out0 (i * p + j)
  have hq : i * p + j < m * p := by
    have h1 : i * p + j < i * p + p := by omega
    have h2 : i * p + p = (i + 1) * p := by ring
    have h3 : (i + 1) * p ≤ m * p := Nat.mul_le_mul_right p (by omega)
    omega
  rw [if_pos hq] at h
  have hdiv : (i * p + j) / p = i := by
    rw [Nat.add_comm, Nat.add_mul_div_right _ _ hp,
      Nat.div_eq_of_lt hj, Nat.zero_add]
  have hmod : (i * p + j) % p = j := by
    rw [Nat.add_comm, Nat.add_mul_mod_self_right, Nat.mod_eq_of_lt hj]
  rw [hdiv, hmod] at h
  exact h

/-- The flattened outer loop of `MatmulTiled`: after the `t`-th output
block, out positions below `t * TILE * TILE` hold their block's
accumulator values and the rest are untouched.  Stated for arbitrary
initial scratch-tile contents. -/
lemma MatmulTiled_flat {α : Type} (S : ScalarOps α) (a b : ℕ → α)
    (n pb : ℕ) (out0 : ℕ → α) :
    ∀ (N : ℕ) (ta0 tb0 : ℕ → α) (q : ℕ),
      ((List.range N).foldl
        (fun (st : ((ℕ → α) × (ℕ → α)) × (ℕ → α)) t =>
          let res :=
            (List.range (n / TILE)).foldl
              (fun (st2 : ((ℕ → α) × (ℕ → α)) × (ℕ → α)) k =>
                let ta := fillTile st2.1.1 a
                  (t / pb * n * TILE + k * TILE * TILE)
                let tb := fillTile st2.1.2 b
                  (k * (TILE * pb) * TILE + t % pb * TILE * TILE)
                ((ta, tb), AlignedDot S ta tb st2.2))
              ((st.1.1, st.1.2), fun _ => S.zero)
          (res.1, writeBackTile st.2 res.2
            (t / pb * (TILE * pb) * TILE + t % pb * TILE * TILE)))
        ((ta0, tb0), out0)).2 q
      = if q < N * (TILE * TILE)
        then tiledCell S a b n (TILE * pb)
          (q / (TILE * TILE) / pb) (q / (TILE * TILE) % pb)
          (q % (TILE * TILE))
        else out0 q := by
  intro N
  induction N with
  | zero =>
    intro ta0 tb0 q
    rw [if_neg (by omega)]
    rfl
  | succ N ih =>
    intro ta0 tb0 q
    rw [List.range_succ, List.foldl_append, List.foldl_cons, List.foldl_nil]
    set G := (List.range N).foldl
      (fun (st : ((ℕ → α) × (ℕ → α)) × (ℕ → α)) t =>
        let res :=
          (List.range (n / TILE)).foldl
            (fun (st2 : ((ℕ → α) × (ℕ → α)) × (ℕ → α)) k =>
              let ta := fillTile st2.1.1 a
                (t / pb * n * TILE + k * TILE * TILE)
              let tb := fillTile st2.1.2 b
                (k * (TILE * pb) * TILE + t % pb * TILE * TILE)
              ((ta, tb), AlignedDot S ta tb st2.2))
            ((st.1.1, st.1.2), fun _ => S.zero)
        (res.1, writeBackTile st.2 res.2
          (t / pb * (TILE * pb) * TILE + t % pb * TILE * TILE)))
      ((ta0, tb0), out0) with hG
    show writeBackTile G.2
        ((List.range (n / TILE)).foldl
          (fun (st2 : ((ℕ → α) × (ℕ → α)) × (ℕ → α)) k =>
            let ta := fillTile st2.1.1 a
              (N / pb * n * TILE + k * TILE * TILE)
            let tb := fillTile st2.1.2 b
              (k * (TILE * pb) * TILE + N % pb * TILE * TILE)
            ((ta, tb), AlignedDot S ta tb st2.2))
          ((G.1.1, G.1.2), fun _ => S.zero)).2
        (N / pb * (TILE * pb) * TILE + N % pb * TILE * TILE) q = _
    have hdm := Nat.div_add_mod N pb
    have hbase : N / pb * (TILE * pb) * TILE + N % pb * TILE * TILE
        = N * (TILE * TILE) := by
      calc N / pb * (TILE * pb) * TILE + N % pb * TILE * TILE
          = (TILE * TILE) * (pb * (N / pb) + N % pb) := by ring
        _ = (TILE * TILE) * N := by rw [hdm]
        _ = N * (TILE * TILE) := by ring
    rw [writeBackTile_app, hbase]
    by_cases hin : N * (TILE * TILE) ≤ q ∧ q < N * (TILE * TILE) + TILE * TILE
    · rw [if_pos hin,
        if_pos (by simp only [TILE] at hin ⊢; omega)]
      rw [MatmulTiled_inner S a b n (TILE * pb) (N / pb) (N % pb) (n / TILE)
        G.1.1 G.1.2 (q - N * (TILE * TILE))
        (by simp only [TILE] at hin ⊢; omega)]
      have hq64 : q / (TILE * TILE) = N := by
        simp only [TILE] at hin ⊢
        omega
      have hqr : q % (TILE * TILE) = q - N * (TILE * TILE) := by
        simp only [TILE] at hin ⊢
        omega
      rw [hq64, hqr]
      rfl
    · rw [if_neg hin, hG]
      rw [ih ta0 tb0 q]
      by_cases h3 : q < N * (TILE * TILE)
      · rw [if_pos h3, if_pos (by simp only [TILE] at h3 ⊢; omega)]
      · rw [if_neg h3,
          if_neg (by simp only [TILE] at hin h3 ⊢; omega)]

/-- Pointwise characterisation of `MatmulTiled` for sizes that are
multiples of `TILE`: out position `q` inside the written range holds the
accumulator value of its block, everything else keeps its prior
contents. -/
lemma MatmulTiled_char {α : Type} (S : ScalarOps α) (a b : ℕ → α)
    (n mb pb : ℕ) (out0 : ℕ → α) (q : ℕ) :
    MatmulTiled S a b (TILE * mb) n (TILE * pb) out0 q
      = if q < mb * pb * (TILE * TILE)
        then tiledCell S a b n (TILE * pb)
          (q / (TILE * TILE) / pb) (q / (TILE * TILE) % pb)
          (q % (TILE * TILE))
        else out0 q := by
  have hdm : TILE * mb / TILE = mb :=
    Nat.mul_div_cancel_left mb (by simp [TILE])
  have hdp : TILE * pb / TILE = pb :=
    Nat.mul_div_cancel_left pb (by simp [TILE])
  have hEq : MatmulTiled S a b (TILE * mb) n (TILE * pb) out0
      = ((List.range (mb * pb)).foldl
          (fun (st : ((ℕ → α) × (ℕ → α)) × (ℕ → α)) t =>
            let res :=
              (List.range (n / TILE)).foldl
                (fun (st2 : ((ℕ → α) × (ℕ → α)) × (ℕ → α)) k =>
                  let ta := fillTile st2.1.1 a
                    (t / pb * n * TILE + k * TILE * TILE)
                  let tb := fillTile st2.1.2 b
                    (k * (TILE * pb) * TILE + t % pb * TILE * TILE)
                  ((ta, tb), AlignedDot S ta tb st2.2))
                ((st.1.1, st.1.2), fun _ => S.zero)
            (res.1, writeBackTile st.2 res.2
              (t / pb * (TILE * pb) * TILE + t % pb * TILE * TILE)))
          ((fun _ => S.zero, fun _ => S.zero), out0)).2 := by
    unfold MatmulTiled
    rw [hdm, hdp]
    exact congrArg Prod.snd
      (foldl_range_nested pb
        (fun (st : ((ℕ → α) × (ℕ → α)) × (ℕ → α)) i j =>
          let res :=
            (List.range (n / TILE)).foldl
              (fun (st2 : ((ℕ → α) × (ℕ → α)) × (ℕ → α)) k =>
                let ta := fillTile st2.1.1 a
                  (i * n * TILE + k * TILE * TILE)
                let tb := fillTile st2.1.2 b
                  (k * (TILE * pb) * TILE + j * TILE * TILE)
                ((ta, tb), AlignedDot S ta tb st2.2))
              ((st.1.1, st.1.2), fun _ => S.zero)
          (res.1, writeBackTile st.2 res.2
            (i * (TILE * pb) * TILE + j * TILE * TILE)))
        mb ((fun _ => S.zero, fun _ => S.zero), out0))
  rw [hEq]
  exact MatmulTiled_flat S a b n pb out0 (mb * pb)
    (fun _ => S.zero) (fun _ => S.zero) q

end TiledLemmas

/-- C1: for `m, n, p` positive multiples of `TILE`, with `aT`, `bT` and the
output in the compact 4D block layout and `aR`, `bR` the row-major layouts
of the same logical matrices `A`, `B`, the value `MatmulTiled` stores for
logical cell `(I, J)` equals the value `Matmul` stores for cell `(I, J)` —
over arbitrary scalar operations, hence exactly (bit-for-bit): the tiled
path feeds every product into one accumulator, blocks in increasing `k`
order and products in increasing order within each block, which is the
same operation sequence as the naive path's `k`-summation.  This is
stronger than the claimed tolerance bound (the relative error is zero) and
subsumes the claimed bit-for-bit agreement for `n ≤ TILE`. -/
theorem matmul_tiled_matches_naive {α : Type} (S : ScalarOps α)
    (A B : ℕ → ℕ → α) (aT bT aR bR outT outR : ℕ → α)
    (m n p mb nb pb : ℕ)
    (hm : m = TILE * mb) (hn : n = TILE * nb) (hp : p = TILE * pb)
    (hmb : 0 < mb) (hnb : 0 < nb) (hpb : 0 < pb)
    (haT : ∀ bi bk ii jj, bi < mb → bk < nb → ii < TILE → jj < TILE →
      aT (bi * n * TILE + bk * TILE * TILE + (ii * TILE + jj))
        = A (bi * TILE + ii) (bk * TILE + jj))
    (hbT : ∀ bk bj ii jj, bk < nb → bj < pb → ii < TILE → jj < TILE →
      bT (bk * p * TILE + bj * TILE * TILE + (ii * TILE + jj))
        = B (bk * TILE + ii) (bj * TILE + jj))
    (haR : ∀ i k, i < m → k < n → aR (i * n + k) = A i k)
    (hbR : ∀ k j, k < n → j < p → bR (k * p + j) = B k j)
    (I J : ℕ) (hI : I < m) (hJ : J < p) :
    MatmulTiled S aT bT m n p outT
        (I / TILE * (p * TILE) + J / TILE * (TILE * TILE)
          + (I % TILE * TILE + J % TILE))
      = Matmul S aR bR m n p outR (I * p + J) := by
  subst hm hn hp
  have hT : (0 : ℕ) < TILE := by simp [TILE]
  have hI8 : I / TILE < mb := by simp only [TILE] at hI ⊢; omega
  have hJ8 : J / TILE < pb := by simp only [TILE] at hJ ⊢; omega
  have hr : I % TILE * TILE + J % TILE < TILE * TILE := by
    simp only [TILE]
    omega
  rw [Matmul_apply S aR bR (TILE * mb) (TILE * nb) (TILE * pb) outR I J hI hJ]
  have hq1 : I / TILE * (TILE * pb * TILE) + J / TILE * (TILE * TILE)
      + (I % TILE * TILE + J % TILE)
      = TILE * TILE * (I / TILE * pb + J / TILE)
        + (I % TILE * TILE + J % TILE) := by ring
  rw [hq1, MatmulTiled_char S aT bT (TILE * nb) mb pb outT _]
  have hXlt : I / TILE * pb + J / TILE + 1 ≤ mb * pb := by
    have h1 : (I / TILE + 1) * pb ≤ mb * pb :=
      Nat.mul_le_mul_right pb (by omega)
    have h2 : (I / TILE + 1) * pb = I / TILE * pb + pb := by ring
    omega
  have hqlt : TILE * TILE * (I / TILE * pb + J / TILE)
      + (I % TILE * TILE + J % TILE) < mb * pb * (TILE * TILE) := by
    have h3 : TILE * TILE * (I / TILE * pb + J / TILE) + TILE * TILE
        = (I / TILE * pb + J / TILE + 1) * (TILE * TILE) := by ring
    have h4 : (I / TILE * pb + J / TILE + 1) * (TILE * TILE)
        ≤ mb * pb * (TILE * TILE) := Nat.mul_le_mul_right _ hXlt
    omega
  rw [if_pos hqlt]
  have h0TT : (0 : ℕ) < TILE * TILE := by simp [TILE]
  have hdiv : (TILE * TILE * (I / TILE * pb + J / TILE)
      + (I % TILE * TILE + J % TILE)) / (TILE * TILE)
      = I / TILE * pb + J / TILE := by
    rw [Nat.mul_add_div h0TT, Nat.div_eq_of_lt hr, Nat.add_zero]
  have hmod : (TILE * TILE * (I / TILE * pb + J / TILE)
      + (I % TILE * TILE + J % TILE)) % (TILE * TILE)
      = I % TILE * TILE + J % TILE := by
    rw [Nat.mul_add_mod, Nat.mod_eq_of_lt hr]
  have hdd : (I / TILE * pb + J / TILE) / pb = I / TILE := by
    rw [Nat.add_comm, Nat.add_mul_div_right _ _ (by omega : 0 < pb),
      Nat.div_eq_of_lt hJ8, Nat.zero_add]
  have hdm2 : (I / TILE * pb + J / TILE) % pb = J / TILE := by
    rw [Nat.add_comm, Nat.add_mul_mod_self_right, Nat.mod_eq_of_lt hJ8]
  rw [hdiv, hmod, hdd, hdm2]
  unfold tiledCell matCell
  rw [Nat.mul_div_cancel_left nb hT]
  have hrd : (I % TILE * TILE + J % TILE) / TILE = I % TILE := by
    simp only [TILE]
    omega
  have hrm : (I % TILE * TILE + J % TILE) % TILE = J % TILE := by
    simp only [TILE]
    omega
  rw [hrd, hrm]
  have hIdm : I / TILE * TILE + I % TILE = I := by
    simp only [TILE]
    omega
  have hJdm : J / TILE * TILE + J % TILE = J := by
    simp only [TILE]
    omega
  have hLHS : (List.range nb).foldl
      (fun v kb => (List.range TILE).foldl
        (fun acc kk => S.add acc
          (S.mul (aT (I / TILE * (TILE * nb) * TILE + kb * TILE * TILE
                    + (I % TILE * TILE + kk)))
                 (bT (kb * (TILE * pb) * TILE + J / TILE * TILE * TILE
                    + (kk * TILE + J % TILE)))))
        v) S.zero
    = (List.range nb).foldl
      (fun v kb => (List.range TILE).foldl
        (fun acc kk => S.add acc
          (S.mul (A I (kb * TILE + kk)) (B (kb * TILE + kk) J))) v)
      S.zero := by
    apply List.foldl_ext
    intro v kb hkb
    rw [List.mem_range] at hkb
    apply List.foldl_ext
    intro acc kk hkk
    rw [List.mem_range] at hkk
    rw [haT (I / TILE) kb (I % TILE) kk hI8 hkb
        (by simp only [TILE]; omega) hkk,
      hbT kb (J / TILE) kk (J % TILE) hkb hJ8 hkk
        (by simp only [TILE]; omega),
      hIdm, hJdm]
  have hflat := foldl_range_nested TILE
    (fun (acc : α) kb kk =>
      S.add acc (S.mul (A I (kb * TILE + kk)) (B (kb * TILE + kk) J)))
    nb S.zero
  refine (hLHS.trans (hflat.trans ?_))
  have hstep3 : (List.range (nb * TILE)).foldl
      (fun (acc : α) t => S.add acc
        (S.mul (A I (t / TILE * TILE + t % TILE))
               (B (t / TILE * TILE + t % TILE) J))) S.zero
    = (List.range (nb * TILE)).foldl
      (fun (acc : α) t => S.add acc (S.mul (A I t) (B t J))) S.zero := by
    apply List.foldl_ext
    intro acc t _
    have h1 : t / TILE * TILE + t % TILE = t := by
      rw [Nat.mul_comm]
      exact Nat.div_add_mod t TILE
    rw [h1]
  refine hstep3.trans ?_
  rw [Nat.mul_comm nb TILE]
  apply List.foldl_ext
  intro acc k hk
  rw [List.mem_range] at hk
  rw [haR I k hI hk, hbR k J hk hJ]

/-- Witness for C1 at `m = n = p = TILE` with the constant matrices
`A = 2`, `B = 3`, at logical cell `(1, 2)`. -/
theorem matmul_tiled_matches_naive_witness :
    MatmulTiled intOps (fun _ => 2) (fun _ => 3) TILE TILE TILE (fun _ => 5)
        (1 / TILE * (TILE * TILE) + 2 / TILE * (TILE * TILE)
          + (1 % TILE * TILE + 2 % TILE))
      = Matmul intOps (fun _ => 2) (fun _ => 3) TILE TILE TILE (fun _ => 6)
          (1 * TILE + 2) :=
  matmul_tiled_matches_naive intOps (fun _ _ => 2) (fun _ _ => 3)
    (fun _ => 2) (fun _ => 3) (fun _ => 2) (fun _ => 3)
    (fun _ => 5) (fun _ => 6) TILE TILE TILE 1 1 1
    (Nat.mul_one TILE).symm (Nat.mul_one TILE).symm (Nat.mul_one TILE).symm
    Nat.one_pos Nat.one_pos Nat.one_pos
    (fun _ _ _ _ _ _ _ _ => rfl) (fun _ _ _ _ _ _ _ _ => rfl)
    (fun _ _ _ _ => rfl) (fun _ _ _ _ => rfl)
    1 2 (by simp [TILE]) (by simp [TILE])

end Needle
